import Mathlib

/-!
Shallow embedding of the PyGoop crawler core (`src/pygoop/crawler.py`,
`src/pygoop/parser.py`) and proofs about its spec.

Conventions of the embedding:
- URLs are `String`s, as in the source; character-level helpers work on
  `List Char` (`String.data`).
- Wall-clock time is a `Nat` logical clock carried in the state; `time.sleep`
  advances it.
- External collaborators (the HTTP transport `requests.get`, the
  BeautifulSoup-based extractor, the `urlopen` call inside
  `RobotFileParser.read`) are oracles: arbitrary functions supplied as
  parameters, so every theorem quantifies over their behavior.
- `clean_url` and `is_valid_url` are imported by `crawler.py` from
  `pygoop.utils` but are not defined anywhere in the repository source;
  they are modelled from the spec (see their doc comments).
-/

namespace PyGoop

/-! ### Character-list helpers (used to embed `urllib.parse` behavior) -/

/-- Does the character list contain `c`? -/
def containsC (c : Char) : List Char → Bool
  | [] => false
  | a :: t => a = c || containsC c t

/-- Characters strictly before the first occurrence of `c` (all of them if
`c` is absent). -/
def takeBeforeC (c : Char) : List Char → List Char
  | [] => []
  | a :: t => if a = c then [] else a :: takeBeforeC c t

/-- Characters strictly after the first occurrence of `c` (`[]` if absent). -/
def dropThroughC (c : Char) : List Char → List Char
  | [] => []
  | a :: t => if a = c then t else dropThroughC c t

/-- Split on every occurrence of `c` (like `str.split(c)`). -/
def splitOnC (c : Char) : List Char → List (List Char)
  | [] => [[]]
  | a :: t =>
    if a = c then [] :: splitOnC c t
    else
      match splitOnC c t with
      | [] => [[a]]
      | h :: r => (a :: h) :: r

/-- Join with separator `c` (like `c.join(...)`). -/
def joinC (c : Char) : List (List Char) → List Char
  | [] => []
  | [x] => x
  | x :: y :: r => x ++ c :: joinC c (y :: r)

/-! ### URL structure helpers (embedding of the `urlparse` uses in the source)

`urlparse(url).netloc` is embedded for absolute `http`/`https` URLs, the only
ones the crawler ever feeds it: the seed is validated and
`Parser.extract_links` keeps only URLs starting with `http://`/`https://`. -/

/-- The part of the URL after the `http://` / `https://` scheme marker. -/
def afterSchemeC (d : List Char) : List Char :=
  if "http://".data.isPrefixOf d then d.drop 7
  else if "https://".data.isPrefixOf d then d.drop 8
  else d

/-- The host part: everything up to the first `/`, `?` or `#`. -/
def hostPart (l : List Char) : List Char :=
  l.takeWhile (fun c => ¬ (c = '/' ∨ c = '?' ∨ c = '#'))

/-- `urlparse(url).netloc` on `List Char`. -/
def netlocC (d : List Char) : List Char :=
  if "http://".data.isPrefixOf d then hostPart (d.drop 7)
  else if "https://".data.isPrefixOf d then hostPart (d.drop 8)
  else []

/-- `urlparse(url).netloc` (the per-domain key used by the crawler). -/
def netloc (s : String) : String := ⟨netlocC s.data⟩

/-- `urlparse(url).scheme` for the `http`/`https` URLs the crawler handles. -/
def urlScheme (s : String) : String :=
  if "https://".data.isPrefixOf s.data then "https"
  else if "http://".data.isPrefixOf s.data then "http"
  else ""

/-- `f"{parsed_url.scheme}://{parsed_url.netloc}"`: the robots-cache key of
`Crawler._get_robots_parser`. -/
def originOf (s : String) : String := urlScheme s ++ "://" ++ netloc s

/-- Modelled from the spec: `is_valid_url` is imported from `pygoop.utils`
but missing from the repository source.  Spec §4.1: a URL is rejected if it
has no scheme, an unsupported scheme, or an empty host; the crawler handles
`http`/`https` URLs. -/
def is_valid_url (s : String) : Bool :=
  ("http://".data.isPrefixOf s.data || "https://".data.isPrefixOf s.data)
    && !(netlocC s.data).isEmpty

/-! ### Spec-modelled URL normalizer (`clean_url`)

`clean_url` is imported from `pygoop.utils` but missing from the repository
source.  Modelled from the spec §4.1: strip the fragment; re-encode the query
string with parameters sorted lexicographically by key, stable for duplicate
keys (list-of-pairs semantics); if the path is empty, set it to `/`. -/

/-- Query string → list of `(key, value)` pairs, splitting on `&` then on the
first `=` of each segment; empty segments are dropped. -/
def parseQuery (q : List Char) : List (List Char × List Char) :=
  ((splitOnC '&' q).filter (· ≠ [])).map
    (fun seg => (takeBeforeC '=' seg, dropThroughC '=' seg))

/-- One `key=value` segment. -/
def encodePair (p : List Char × List Char) : List Char := p.1 ++ '=' :: p.2

/-- Pairs → query string joined with `&`. -/
def encodeQuery (ps : List (List Char × List Char)) : List Char :=
  joinC '&' (ps.map encodePair)

/-- Lexicographic comparison of keys by character code (the order `sorted`
uses on strings). -/
def keyLe : List Char → List Char → Bool
  | [], _ => true
  | _ :: _, [] => false
  | a :: x, b :: y =>
    if a.val < b.val then true
    else if b.val < a.val then false
    else keyLe x y

/-- Stable insertion of a pair into a key-sorted list: the new element goes
before the first element whose key is not ≤ it, hence before later
duplicates of its key. -/
def insertPair (p : List Char × List Char) :
    List (List Char × List Char) → List (List Char × List Char)
  | [] => [p]
  | q :: r => if keyLe p.1 q.1 then p :: q :: r else q :: insertPair p r

/-- Stable sort of the query pairs by key (Python `sorted` with a key). -/
def sortPairs : List (List Char × List Char) → List (List Char × List Char)
  | [] => []
  | p :: r => insertPair p (sortPairs r)

/-- Adjacent-sortedness by key under `keyLe` (what `sorted` guarantees). -/
def pairsSorted : List (List Char × List Char) → Prop
  | [] => True
  | [_] => True
  | p :: q :: r => keyLe p.1 q.1 = true ∧ pairsSorted (q :: r)

/-- `(base, query)`: drop the fragment, then split at the first `?`. -/
def splitUrlC (s : List Char) : List Char × List Char :=
  let noFrag := takeBeforeC '#' s
  (takeBeforeC '?' noFrag, dropThroughC '?' noFrag)

/-- If the path is empty (no `/` after the scheme marker) append `/`. -/
def fixPathC (b : List Char) : List Char :=
  if containsC '/' (afterSchemeC b) then b else b ++ ['/']

/-- The normalizer on character lists. -/
def cleanUrlC (s : List Char) : List Char :=
  let bq := splitUrlC s
  let base := fixPathC bq.1
  let ps := sortPairs (parseQuery bq.2)
  if ps = [] then base else base ++ '?' :: encodeQuery ps

/-- Modelled from the spec: `clean_url` is imported from `pygoop.utils` but
missing from the repository source.  Spec §4.1 canonicalization: strip
fragment; sort query parameters lexicographically by key, stable for
duplicates; empty path becomes `/`. -/
def clean_url (s : String) : String := ⟨cleanUrlC s.data⟩

/-! ### Association-list helpers (embedding of the Python `dict` fields) -/

/-- `d.get(k)` on an association list. -/
def lookupA {β : Type} (k : String) : List (String × β) → Option β
  | [] => none
  | (k', v) :: r => if k' = k then some v else lookupA k r

/-- `d[k] = v` on an association list (replace or append). -/
def insertA {β : Type} (k : String) (v : β) : List (String × β) → List (String × β)
  | [] => [(k, v)]
  | (k', v') :: r => if k' = k then (k, v) :: r else (k', v') :: insertA k v r

/-! ### Data model (`CrawlResult` dataclass, crawler configuration) -/

/-- `CrawlResult` (crawler.py lines 24–39).  The `__post_init__` defaults
(`links = []`, `headers = {}`) are the values used below whenever the source
constructs a result without those arguments. -/
structure CrawlResult where
  url : String
  status_code : Nat
  title : String := ""
  content : String := ""
  links : List String := []
  headers : List (String × String) := []
  error : String := ""
  deriving DecidableEq, Repr

/-- The `Crawler.__init__` configuration fields that the embedded code reads.
`timeout` and the header dictionary are consumed only by the HTTP transport,
which is an oracle here, so they are absorbed into it. -/
structure Config where
  user_agent : String := "PyGoop/0.1.0 (+https://github.com/pygoop)"
  delay : Nat := 1
  max_depth : Nat := 3
  max_urls : Nat := 100
  respect_robots_txt : Bool := true
  follow_external_links : Bool := false
  concurrent_requests : Nat := 1
  deriving DecidableEq, Repr

/-! ### `urllib.robotparser.RobotFileParser` (CPython semantics)

`crawler.py` delegates robots handling to the standard library.  The embedding
keeps exactly the CPython state that `can_fetch` consults: `disallow_all`,
`allow_all`, `last_checked`, and the parsed rules.  The parsed rule sets are
abstracted into a per-URL decision table (the rule-matching internals are
external library behavior no claim depends on); `default` below is the
freshly-constructed parser `RobotFileParser()`. -/

structure RobotFileParser where
  disallow_all : Bool := false
  allow_all : Bool := false
  /-- CPython sets `last_checked` when `parse` runs; until then `can_fetch`
  returns `False` ("we must assume that no url is allowable"). -/
  last_checked : Bool := false
  allowTable : List (String × Bool) := []
  deriving DecidableEq, Repr

/-- CPython `RobotFileParser.can_fetch`. -/
def RobotFileParser.canFetch (p : RobotFileParser) (_agent url : String) : Bool :=
  if p.disallow_all then false
  else if p.allow_all then true
  else if !p.last_checked then false
  else ((lookupA url p.allowTable).getD true)

/-- What the `urlopen` inside `RobotFileParser.read` does for one robots.txt
URL: a parsed rule table, an HTTP error status, or a raised transport error. -/
inductive RobotsFetch where
  | success (allowTable : List (String × Bool))
  | httpError (code : Nat)
  | exn
  deriving DecidableEq, Repr

/-- CPython `RobotFileParser.read` applied to a fresh parser: `HTTPError`
401/403 set `disallow_all`, other 4xx set `allow_all`, other HTTP errors
leave the parser untouched; a successful fetch parses (setting
`last_checked`); any other exception propagates (`none`). -/
def robotsRead : RobotsFetch → Option RobotFileParser
  | .success tbl => some { last_checked := true, allowTable := tbl }
  | .httpError c =>
    if c = 401 ∨ c = 403 then some { disallow_all := true }
    else if 400 ≤ c ∧ c < 500 then some { allow_all := true }
    else some {}
  | .exn => none

/-! ### Transport and extractor oracles -/

/-- The outcome of `requests.get(url, ...)`: the three exception classes
caught by `_fetch_url`, or a response (`final_url` is `response.url` after
redirects). -/
inductive TransportResult where
  | timeout
  | connectionError
  | otherError (msg : String)
  | response (finalUrl : String) (statusCode : Nat)
      (headers : List (String × String)) (body : String)
  deriving DecidableEq, Repr

/-- The external collaborators, as deterministic oracles: the HTTP transport,
the `Parser` extraction methods (parser.py), and the robots.txt fetch done by
`RobotFileParser.read` (keyed by the robots URL). -/
structure Oracles where
  transport : String → TransportResult
  extract_title : String → String
  extract_text : String → String
  extract_links : String → String → List String
  robotsFetch : String → RobotsFetch

/-! ### Crawler instance state (`robots_cache`, `last_request_time`) -/

/-- The mutable `Crawler` instance fields that `_fetch_url` touches, plus a
logical wall clock (`now`) standing for `time.time()`; `time.sleep` advances
it. -/
structure CrawlerState where
  robots_cache : List (String × RobotFileParser) := []
  last_request_time : List (String × Nat) := []
  now : Nat := 0
  deriving DecidableEq, Repr

/-- `Crawler._get_robots_parser` (crawler.py lines 100–130).  On a `read`
exception the *fallback fresh parser* is cached — the source comment says it
"allows everything" but `canFetch` on it returns `false`. -/
def getRobotsParser (o : Oracles) (st : CrawlerState) (url : String) :
    CrawlerState × RobotFileParser :=
  let domain := originOf url
  match lookupA domain st.robots_cache with
  | some p => (st, p)
  | none =>
    let robotsUrl := domain ++ "/robots.txt"
    match robotsRead (o.robotsFetch robotsUrl) with
    | some p => ({ st with robots_cache := insertA domain p st.robots_cache }, p)
    | none =>
      let p : RobotFileParser := {}
      ({ st with robots_cache := insertA domain p st.robots_cache }, p)

/-- `Crawler._can_fetch` (lines 132–150).  Nothing in the embedded body can
raise, so the `except` branch (return `True`) is unreachable here. -/
def canFetchCheck (cfg : Config) (o : Oracles) (st : CrawlerState) (url : String) :
    CrawlerState × Bool :=
  if !cfg.respect_robots_txt then (st, true)
  else
    let sp := getRobotsParser o st url
    (sp.1, sp.2.canFetch cfg.user_agent url)

/-- `Crawler._respect_rate_limit` (lines 152–171): sleep until `delay` has
elapsed since the last request to the domain, then record `time.time()`. -/
def respectRateLimit (cfg : Config) (st : CrawlerState) (url : String) : CrawlerState :=
  let domain := netloc url
  match lookupA domain st.last_request_time with
  | some last =>
    let t := if st.now - last < cfg.delay then last + cfg.delay else st.now
    { st with now := t, last_request_time := insertA domain t st.last_request_time }
  | none =>
    { st with last_request_time := insertA domain st.now st.last_request_time }

/-- ASCII case folding (`str.lower()` on the ASCII header/content-type
strings this code compares). -/
def lowerChar (c : Char) : Char :=
  if 'A' ≤ c ∧ c ≤ 'Z' then Char.ofNat (c.toNat + 32) else c

/-- `str.lower()` for the ASCII strings handled here. -/
def toLowerStr (s : String) : String := ⟨s.data.map lowerChar⟩

/-- `response.headers.get('Content-Type', '').lower()`; `requests` header
lookup is case-insensitive. -/
def contentTypeOf (headers : List (String × String)) : String :=
  toLowerStr (((headers.find? (fun kv => toLowerStr kv.1 = "content-type")).map
    Prod.snd).getD "")

/-- `'text/html' in content_type`. -/
def isHtmlContentType (ct : String) : Bool :=
  decide ("text/html".data.IsInfix ct.data)

/-- `Crawler._fetch_url` (lines 173–244).  Total: every terminal condition is
encoded in the returned `CrawlResult`, never raised. -/
def fetchUrl (cfg : Config) (o : Oracles) (st : CrawlerState) (url : String) :
    CrawlerState × CrawlResult :=
  if !is_valid_url url then
    (st, { url := url, status_code := 0, error := "Invalid URL" })
  else
    let sb := canFetchCheck cfg o st url
    if !sb.2 then
      (sb.1, { url := url, status_code := 0, error := "Blocked by robots.txt" })
    else
      let st := respectRateLimit cfg sb.1 url
      match o.transport url with
      | .timeout =>
        (st, { url := url, status_code := 0, error := "Request timed out" })
      | .connectionError =>
        (st, { url := url, status_code := 0, error := "Connection error" })
      | .otherError m =>
        (st, { url := url, status_code := 0, error := "Error: " ++ m })
      | .response finalUrl code headers body =>
        if code = 200 then
          let ct := contentTypeOf headers
          if isHtmlContentType ct then
            (st, { url := finalUrl, status_code := code,
                   title := o.extract_title body,
                   content := o.extract_text body,
                   links := o.extract_links body url,
                   headers := headers })
          else
            (st, { url := finalUrl, status_code := code, headers := headers,
                   error := "Not an HTML page (Content-Type: " ++ ct ++ ")" })
        else
          (st, { url := finalUrl, status_code := code, headers := headers,
                 error := "HTTP error: " ++ toString code })

/-! ### The traversal loop (`Crawler.crawl`, lines 246–337)

The loop state: `results`, `visited` (a `List String` used as a set),
`to_visit` (the frontier of `(url, depth)` pairs), and the crawler instance
state threaded through `_fetch_url`.  `fetchLog` is a ghost field: it records
every frontier entry handed to `_fetch_url` (one per call in the
single-threaded branch, the whole batch at `executor.map` dispatch in the
concurrent branch) and influences no control flow. -/

structure St where
  results : List CrawlResult := []
  visited : List String := []
  to_visit : List (String × Nat) := []
  cstate : CrawlerState := {}
  fetchLog : List (String × Nat) := []
  deriving Repr

/-- The link-follow filter and enqueue (lines 303–310 and 328–335): append
`(link, depth+1)` iff the link is unvisited and in scope. -/
def enqueueLinks (cfg : Config) (baseDomain : String) (depth : Nat) (s : St) :
    List String → St
  | [] => s
  | link :: rest =>
    let s' :=
      if link ∉ s.visited ∧ (cfg.follow_external_links ∨ netloc link = baseDomain)
      then { s with to_visit := s.to_visit ++ [(link, depth + 1)] }
      else s
    enqueueLinks cfg baseDomain depth s' rest

/-- The batch-collection inner `while` (lines 279–284): pop up to `k` entries
from the frontier head, skipping and discarding already-visited ones, marking
each selected URL visited at pop time.  Returns
`(batch, visited, remaining frontier)`. -/
def takeBatch (k : Nat) (batch : List (String × Nat)) (visited : List String) :
    List (String × Nat) → List (String × Nat) × List String × List (String × Nat)
  | [] => (batch, visited, [])
  | (url, depth) :: rest =>
    if k ≤ batch.length then (batch, visited, (url, depth) :: rest)
    else if url ∈ visited then takeBatch k batch visited rest
    else takeBatch k (batch ++ [(url, depth)]) (url :: visited) rest

/-- `executor.map(self._fetch_url, batch)` (lines 290–291): apply `_fetch_url`
to each batch URL, collecting outcomes in batch order.  The workers'
interleaved mutations of `robots_cache` / `last_request_time` are modelled as
sequential threading (see the C9 theorems: the workers do mutate this shared
state). -/
def runBatch (cfg : Config) (o : Oracles) (st : CrawlerState) :
    List String → CrawlerState × List CrawlResult
  | [] => (st, [])
  | u :: us =>
    let sr := fetchUrl cfg o st u
    let rest := runBatch cfg o sr.1 us
    (rest.1, sr.2 :: rest.2)

/-- The batch-result `for` loop (lines 294–310): append each outcome; on
reaching `max_urls`, `break` (discarding the rest of the batch); otherwise
enqueue the outcome's links when `depth < max_depth`.  (`result.links` being
empty makes the source's truthiness guard and the fold below agree.) -/
def processBatch (cfg : Config) (baseDomain : String) (s : St) :
    List (CrawlResult × Nat) → St
  | [] => s
  | (result, depth) :: rest =>
    let s' := { s with results := s.results ++ [result] }
    if cfg.max_urls ≤ s'.results.length then s'
    else
      let s'' := if depth < cfg.max_depth
                 then enqueueLinks cfg baseDomain depth s' result.links
                 else s'
      processBatch cfg baseDomain s'' rest

/-- One iteration of the `while` body (lines 273–335).  In the
single-threaded branch the `break` at line 324 is modelled by returning the
state and letting the loop guard terminate, which yields the same final
state. -/
def stepCrawl (cfg : Config) (o : Oracles) (baseDomain : String) (s : St) : St :=
  if 1 < cfg.concurrent_requests then
    let bvt := takeBatch cfg.concurrent_requests [] s.visited s.to_visit
    let batch := bvt.1
    let s₁ := { s with visited := bvt.2.1, to_visit := bvt.2.2 }
    if batch = [] then s₁
    else
      let cr := runBatch cfg o s₁.cstate (batch.map Prod.fst)
      let s₂ := { s₁ with cstate := cr.1, fetchLog := s₁.fetchLog ++ batch }
      processBatch cfg baseDomain s₂ (cr.2.zip (batch.map Prod.snd))
  else
    match s.to_visit with
    | [] => s
    | (url, depth) :: rest =>
      if url ∈ s.visited then { s with to_visit := rest }
      else
        let cr := fetchUrl cfg o s.cstate url
        let s' := { s with to_visit := rest, visited := url :: s.visited,
                           cstate := cr.1, results := s.results ++ [cr.2],
                           fetchLog := s.fetchLog ++ [(url, depth)] }
        if cfg.max_urls ≤ s'.results.length then s'
        else if depth < cfg.max_depth
             then enqueueLinks cfg baseDomain depth s' cr.2.links
             else s'

/-- The loop guard: `while to_visit and len(results) < self.max_urls`
(negated). -/
def crawlDone (cfg : Config) (s : St) : Prop :=
  s.to_visit = [] ∨ cfg.max_urls ≤ s.results.length

instance (cfg : Config) (s : St) : Decidable (crawlDone cfg s) := by
  unfold crawlDone; infer_instance

/-! ### The loop itself (`while to_visit and len(results) < self.max_urls`) -/

/-- The `while` loop of `Crawler.crawl`; terminates because each iteration
either grows `results` (which the guard bounds by `max_urls`) or shrinks the
frontier without touching `results`.  The `decreasing_by` block proves this
self-contained; the same facts reappear later as standalone theorems
(`stepCrawl_measure` and its helpers). -/
def crawlLoop (cfg : Config) (o : Oracles) (bd : String) (s : St) : St :=
  if h : crawlDone cfg s then s
  else crawlLoop cfg o bd (stepCrawl cfg o bd s)
termination_by (cfg.max_urls - s.results.length, s.to_visit.length)
decreasing_by
  have henq : ∀ (d : Nat) (links : List String) (t : St),
      (enqueueLinks cfg bd d t links).results = t.results := by
    intro d links
    induction links with
    | nil => intro t; rfl
    | cons l rest ih =>
      intro t
      unfold enqueueLinks
      split <;> exact ih _
  have hpble : ∀ (l : List (CrawlResult × Nat)) (t : St),
      t.results.length ≤ (processBatch cfg bd t l).results.length := by
    intro l
    induction l with
    | nil => intro t; exact Nat.le_refl _
    | cons p rest ih =>
      intro t
      unfold processBatch
      dsimp only
      split <;> (try split) <;>
        first
        | (simp [henq] <;> omega)
        | (refine Nat.le_trans ?_ (ih _); simp [henq] <;> omega)
  have hpblt : ∀ (l : List (CrawlResult × Nat)) (t : St), l ≠ [] →
      t.results.length < (processBatch cfg bd t l).results.length := by
    intro l t hl
    cases l with
    | nil => exact absurd rfl hl
    | cons p rest =>
      unfold processBatch
      dsimp only
      split <;> (try split) <;>
        first
        | (simp [henq] <;> omega)
        | (refine Nat.lt_of_lt_of_le ?_ (hpble rest _); simp [henq] <;> omega)
  have hrbl : ∀ (us : List String) (st : CrawlerState),
      (runBatch cfg o st us).2.length = us.length := by
    intro us
    induction us with
    | nil => intro st; rfl
    | cons u rest ih =>
      intro st
      unfold runBatch
      simp [ih]
  have htbl : ∀ (tv b : List (String × Nat)) (v : List String),
      b.length ≤ (takeBatch cfg.concurrent_requests b v tv).1.length := by
    intro tv
    induction tv with
    | nil => intro b v; simp [takeBatch]
    | cons e rest ih =>
      obtain ⟨url, depth⟩ := e
      intro b v
      unfold takeBatch
      split
      · exact Nat.le_refl _
      · split
        · exact ih b v
        · have h2 := ih (b ++ [(url, depth)]) (url :: v)
          simp at h2
          omega
  have htbp : ∀ (tv : List (String × Nat)) (v : List String), tv ≠ [] →
      0 < cfg.concurrent_requests →
      (takeBatch cfg.concurrent_requests [] v tv).1 = [] →
      (takeBatch cfg.concurrent_requests [] v tv).2.2.length < tv.length := by
    intro tv
    induction tv with
    | nil => intro v h2; exact absurd rfl h2
    | cons e rest ih =>
      obtain ⟨url, depth⟩ := e
      intro v _ hk hbatch
      unfold takeBatch at hbatch ⊢
      rw [if_neg (by simpa using Nat.not_le.mpr hk)] at hbatch ⊢
      by_cases hv : url ∈ v
      · rw [if_pos hv] at hbatch ⊢
        by_cases hrest : rest = []
        · subst hrest; simp [takeBatch]
        · have hlt := ih v hrest hk hbatch
          exact Nat.lt_trans hlt (Nat.lt_succ_self _)
      · exfalso
        rw [if_neg hv] at hbatch
        have h2 := htbl rest ([] ++ [(url, depth)]) (url :: v)
        rw [hbatch] at h2
        simp at h2
  have hm : s.results.length < (stepCrawl cfg o bd s).results.length ∨
      ((stepCrawl cfg o bd s).results = s.results ∧
        (stepCrawl cfg o bd s).to_visit.length < s.to_visit.length) := by
    have h' := h
    unfold crawlDone at h'
    push_neg at h'
    obtain ⟨htv, _⟩ := h'
    unfold stepCrawl
    split
    · rename_i hconc
      dsimp only
      split
      · rename_i hbatch
        right
        refine ⟨rfl, ?_⟩
        exact htbp s.to_visit s.visited htv
          (Nat.lt_of_lt_of_le Nat.one_pos (Nat.le_of_lt hconc)) hbatch
      · rename_i hbatch
        left
        refine lt_of_eq_of_lt (?_ : s.results.length = _) (hpblt _ _ ?_)
        · rfl
        intro hznil
        apply hbatch
        have hzl := congrArg List.length hznil
        rw [List.length_zip, hrbl] at hzl
        simp only [List.length_map, Nat.min_self, List.length_nil] at hzl
        exact List.length_eq_zero.mp hzl
    · rcases hmatch : s.to_visit with _ | ⟨⟨url, depth⟩, rest⟩
      · exact absurd hmatch htv
      · try dsimp only
        by_cases hv : url ∈ s.visited
        · rw [if_pos hv]
          right
          constructor
          · rfl
          · simp
        · rw [if_neg hv]
          try dsimp only
          split
          · left; simp <;> omega
          · split
            · left; simp [henq] <;> omega
            · left; simp <;> omega
  rcases hm with hlt | ⟨heq, hlt⟩
  · apply Prod.Lex.left
    apply Nat.sub_lt_sub_left _ hlt
    unfold crawlDone at h
    push_neg at h
    exact h.2
  · rw [heq]
    exact Prod.Lex.right _ hlt

/-- Fuel-indexed version of the loop, used to state termination (C10): it
runs the same guard and step, giving up when the fuel is exhausted. -/
def crawlLoopFuel (cfg : Config) (o : Oracles) (bd : String) : Nat → St → Option St
  | 0, _ => none
  | n + 1, s =>
    if crawlDone cfg s then some s
    else crawlLoopFuel cfg o bd n (stepCrawl cfg o bd s)

/-- `Crawler.crawl` (lines 246–337) up to the final state: reject an invalid
seed; otherwise normalize it, take its domain as `base_domain`, and run the
loop from `results = []`, `visited = set()`, `to_visit = [(start_url, 0)]`. -/
def crawlFinal (cfg : Config) (o : Oracles) (start_url : String) : St :=
  if !is_valid_url start_url then {}
  else
    let su := clean_url start_url
    crawlLoop cfg o (netloc su) { to_visit := [(su, 0)] }

/-- `Crawler.crawl`: the returned result list. -/
def crawl (cfg : Config) (o : Oracles) (start_url : String) : List CrawlResult :=
  (crawlFinal cfg o start_url).results

/-- Fuel-indexed `crawl`, for the termination statement. -/
def crawlFuel (cfg : Config) (o : Oracles) (n : Nat) (start_url : String) :
    Option (List CrawlResult) :=
  if !is_valid_url start_url then some []
  else
    let su := clean_url start_url
    (crawlLoopFuel cfg o (netloc su) n { to_visit := [(su, 0)] }).map St.results


/-- The C2 step invariant, as a predicate on loop states. -/
def DepthInv (cfg : Config) (s : St) : Prop :=
  (∀ p ∈ s.to_visit, p.2 ≤ cfg.max_depth) ∧ (∀ p ∈ s.fetchLog, p.2 ≤ cfg.max_depth)

/-- The C6 step invariant. -/
def ScopeInv (bd : String) (s : St) : Prop :=
  (∀ p ∈ s.to_visit, netloc p.1 = bd) ∧ (∀ p ∈ s.fetchLog, netloc p.1 = bd)

/-- The C3 (string-level) step invariant. -/
def DedupInv (s : St) : Prop :=
  (s.fetchLog.map Prod.fst).Nodup ∧ ∀ u ∈ s.fetchLog.map Prod.fst, u ∈ s.visited

/-! ### Concrete configurations and oracles for the witnesses,
counterexamples and scenario conjuncts -/

/-- Configuration shared by the counterexample crawls: single-threaded,
robots checks off, no politeness delay. -/
def cexCfg : Config :=
  { max_depth := 1, max_urls := 100, respect_robots_txt := false, delay := 0,
    concurrent_requests := 1 }

/-- Oracle for the C3 counterexample: the seed page links to one resource
twice, with the query parameters in different textual order; the transport
never redirects, so each outcome's recorded `url` is the requested URL. -/
def c3Oracle : Oracles :=
  { transport := fun u => .response u 200 [("Content-Type", "text/html")] ""
    extract_title := fun _ => ""
    extract_text := fun _ => ""
    extract_links := fun _ base =>
      if base = "http://a.com/" then
        ["http://a.com/p?b=2&a=1", "http://a.com/p?a=1&b=2"]
      else []
    robotsFetch := fun _ => .exn }

/-- Oracle for the C6 counterexample: the seed links to an on-domain page
`http://a.com/r` whose fetch redirects to `http://b.com/x`. -/
def c6Oracle : Oracles :=
  { transport := fun u =>
      if u = "http://a.com/r" then
        .response "http://b.com/x" 200 [("Content-Type", "text/html")] ""
      else .response u 200 [("Content-Type", "text/html")] ""
    extract_title := fun _ => ""
    extract_text := fun _ => ""
    extract_links := fun _ base =>
      if base = "http://a.com/" then ["http://a.com/r"] else []
    robotsFetch := fun _ => .exn }

/-- Oracle for the C4 demonstration: every robots.txt fetch raises a
transport error; the pages themselves would be served fine. -/
def c4Oracle : Oracles :=
  { transport := fun u => .response u 200 [("Content-Type", "text/html")] "page"
    extract_title := fun _ => ""
    extract_text := fun _ => ""
    extract_links := fun _ _ => []
    robotsFetch := fun _ => .exn }

/-- `c5Cfg`/`c5Oracle`: Scenario B — the seed returns HTTP 404. -/
def c5Oracle : Oracles :=
  { transport := fun u => .response u 404 [] ""
    extract_title := fun _ => "never used"
    extract_text := fun _ => "never used"
    extract_links := fun _ _ => ["http://a.com/never"]
    robotsFetch := fun _ => .success [] }


/-! ### Structural facts about one iteration, feeding the termination measure -/

@[simp] theorem enqueueLinks_results (cfg : Config) (bd : String) (d : Nat) :
    ∀ (links : List String) (s : St),
      (enqueueLinks cfg bd d s links).results = s.results := by
  intro links
  induction links with
  | nil => intro s; rfl
  | cons l rest ih =>
    intro s
    unfold enqueueLinks
    split <;> exact ih _

@[simp] theorem enqueueLinks_visited (cfg : Config) (bd : String) (d : Nat) :
    ∀ (links : List String) (s : St),
      (enqueueLinks cfg bd d s links).visited = s.visited := by
  intro links
  induction links with
  | nil => intro s; rfl
  | cons l rest ih =>
    intro s
    unfold enqueueLinks
    split <;> exact ih _

@[simp] theorem enqueueLinks_fetchLog (cfg : Config) (bd : String) (d : Nat) :
    ∀ (links : List String) (s : St),
      (enqueueLinks cfg bd d s links).fetchLog = s.fetchLog := by
  intro links
  induction links with
  | nil => intro s; rfl
  | cons l rest ih =>
    intro s
    unfold enqueueLinks
    split <;> exact ih _

theorem processBatch_results_le (cfg : Config) (bd : String) :
    ∀ (l : List (CrawlResult × Nat)) (s : St),
      s.results.length ≤ (processBatch cfg bd s l).results.length := by
  intro l
  induction l with
  | nil => intro s; exact Nat.le_refl _
  | cons p rest ih =>
    intro s
    unfold processBatch
    dsimp only
    split <;> (try split) <;>
      first
      | (simp <;> omega)
      | (refine Nat.le_trans ?_ (ih _); simp <;> omega)

theorem processBatch_results_lt (cfg : Config) (bd : String)
    (p : CrawlResult × Nat) (rest : List (CrawlResult × Nat)) (s : St) :
    s.results.length < (processBatch cfg bd s (p :: rest)).results.length := by
  unfold processBatch
  dsimp only
  split <;> (try split) <;>
    first
    | (simp <;> omega)
    | (refine Nat.lt_of_lt_of_le ?_ (processBatch_results_le cfg bd rest _); simp <;> omega)

theorem processBatch_results_lt_ne (cfg : Config) (bd : String)
    (l : List (CrawlResult × Nat)) (s : St) (h : l ≠ []) :
    s.results.length < (processBatch cfg bd s l).results.length := by
  cases l with
  | nil => exact absurd rfl h
  | cons p rest => exact processBatch_results_lt cfg bd p rest s

theorem runBatch_length (cfg : Config) (o : Oracles) :
    ∀ (us : List String) (st : CrawlerState),
      (runBatch cfg o st us).2.length = us.length := by
  intro us
  induction us with
  | nil => intro st; rfl
  | cons u rest ih =>
    intro st
    unfold runBatch
    simp [ih]

theorem takeBatch_rest_le (k : Nat) :
    ∀ (tv : List (String × Nat)) (b : List (String × Nat)) (v : List String),
      (takeBatch k b v tv).2.2.length ≤ tv.length := by
  intro tv
  induction tv with
  | nil => intro b v; simp [takeBatch]
  | cons e rest ih =>
    intro b v
    unfold takeBatch
    split
    · exact Nat.le_refl _
    · split
      · exact Nat.le_trans (ih b v) (Nat.le_succ _)
      · exact Nat.le_trans (ih _ _) (Nat.le_succ _)

theorem takeBatch_batch_le (k : Nat) :
    ∀ (tv : List (String × Nat)) (b : List (String × Nat)) (v : List String),
      b.length ≤ (takeBatch k b v tv).1.length := by
  intro tv
  induction tv with
  | nil => intro b v; simp [takeBatch]
  | cons e rest ih =>
    obtain ⟨url, depth⟩ := e
    intro b v
    unfold takeBatch
    split
    · exact Nat.le_refl _
    · split
      · exact ih b v
      · have h := ih (b ++ [(url, depth)]) (url :: v)
        simp at h
        omega

theorem takeBatch_progress (k : Nat) :
    ∀ (tv : List (String × Nat)) (v : List String),
      tv ≠ [] → 0 < k → (takeBatch k [] v tv).1 = [] →
      (takeBatch k [] v tv).2.2.length < tv.length := by
  intro tv
  induction tv with
  | nil => intro v h; exact absurd rfl h
  | cons e rest ih =>
    obtain ⟨url, depth⟩ := e
    intro v _ hk hbatch
    unfold takeBatch at hbatch ⊢
    rw [if_neg (by simpa using Nat.not_le.mpr hk)] at hbatch ⊢
    by_cases hv : url ∈ v
    · rw [if_pos hv] at hbatch ⊢
      by_cases hrest : rest = []
      · subst hrest; simp [takeBatch]
      · have hlt := ih v hrest hk hbatch
        exact Nat.lt_trans hlt (Nat.lt_succ_self _)
    · exfalso
      rw [if_neg hv] at hbatch
      have h := takeBatch_batch_le k rest ([] ++ [(url, depth)]) (url :: v)
      rw [hbatch] at h
      simp at h

theorem stepCrawl_measure (cfg : Config) (o : Oracles) (bd : String) (s : St)
    (h : ¬ crawlDone cfg s) :
    s.results.length < (stepCrawl cfg o bd s).results.length ∨
    ((stepCrawl cfg o bd s).results = s.results ∧
      (stepCrawl cfg o bd s).to_visit.length < s.to_visit.length) := by
  unfold crawlDone at h
  push_neg at h
  obtain ⟨htv, _⟩ := h
  unfold stepCrawl
  split
  · rename_i hconc
    dsimp only
    split
    · rename_i hbatch
      right
      refine ⟨rfl, ?_⟩
      exact takeBatch_progress cfg.concurrent_requests s.to_visit s.visited htv
        (Nat.lt_of_lt_of_le Nat.one_pos (Nat.le_of_lt hconc)) hbatch
    · rename_i hbatch
      left
      refine lt_of_eq_of_lt (?_ : s.results.length = _)
        (processBatch_results_lt_ne cfg bd _ _ ?_)
      · rfl
      intro hznil
      apply hbatch
      have hzl := congrArg List.length hznil
      rw [List.length_zip, runBatch_length] at hzl
      simp only [List.length_map, Nat.min_self, List.length_nil] at hzl
      exact List.length_eq_zero.mp hzl
  · rcases hmatch : s.to_visit with _ | ⟨⟨url, depth⟩, rest⟩
    · exact absurd hmatch htv
    · try dsimp only
      by_cases hv : url ∈ s.visited
      · rw [if_pos hv]
        right
        constructor
        · rfl
        · simp
      · rw [if_neg hv]
        try dsimp only
        split
        · left; simp <;> omega
        · split
          · left; simp <;> omega
          · left; simp <;> omega

/-! ### Transfer of step invariants along the loop -/

theorem crawlLoopFuel_inv (cfg : Config) (o : Oracles) (bd : String) (P : St → Prop)
    (hstep : ∀ s, ¬ crawlDone cfg s → P s → P (stepCrawl cfg o bd s)) :
    ∀ (n : Nat) (s t : St), crawlLoopFuel cfg o bd n s = some t → P s → P t := by
  intro n
  induction n with
  | zero => intro s t h; simp [crawlLoopFuel] at h
  | succ n ih =>
    intro s t h hP
    unfold crawlLoopFuel at h
    split at h
    · cases h; exact hP
    · rename_i hdone
      exact ih _ _ h (hstep s hdone hP)

theorem crawlLoop_reaches_aux (cfg : Config) (o : Oracles) (bd : String) :
    ∀ (a b : Nat) (s : St), cfg.max_urls - s.results.length ≤ a →
      s.to_visit.length ≤ b →
      ∃ n, crawlLoopFuel cfg o bd n s = some (crawlLoop cfg o bd s) := by
  intro a
  induction a with
  | zero =>
    intro b s ha _
    have hdone : crawlDone cfg s := Or.inr (by omega)
    refine ⟨1, ?_⟩
    rw [crawlLoop.eq_def, dif_pos hdone]
    unfold crawlLoopFuel
    rw [if_pos hdone]
  | succ a iha =>
    intro b
    induction b with
    | zero =>
      intro s _ hb
      have htv : s.to_visit = [] := List.length_eq_zero.mp (Nat.le_zero.mp hb)
      have hdone : crawlDone cfg s := Or.inl htv
      refine ⟨1, ?_⟩
      rw [crawlLoop.eq_def, dif_pos hdone]
      unfold crawlLoopFuel
      rw [if_pos hdone]
    | succ b ihb =>
      intro s ha hb
      by_cases hdone : crawlDone cfg s
      · refine ⟨1, ?_⟩
        rw [crawlLoop.eq_def, dif_pos hdone]
        unfold crawlLoopFuel
        rw [if_pos hdone]
      · rcases stepCrawl_measure cfg o bd s hdone with hlt | ⟨heq, hlt⟩
        · have hlen : s.results.length < cfg.max_urls := by
            unfold crawlDone at hdone
            push_neg at hdone
            exact hdone.2
          have ha' : cfg.max_urls - (stepCrawl cfg o bd s).results.length ≤ a := by
            omega
          obtain ⟨n, hn⟩ :=
            iha ((stepCrawl cfg o bd s).to_visit.length) _ ha' (Nat.le_refl _)
          refine ⟨n + 1, ?_⟩
          rw [crawlLoop.eq_def, dif_neg hdone]
          unfold crawlLoopFuel
          rw [if_neg hdone]
          exact hn
        · have ha' : cfg.max_urls - (stepCrawl cfg o bd s).results.length ≤ a + 1 := by
            rw [heq]; exact ha
          have hb' : (stepCrawl cfg o bd s).to_visit.length ≤ b := by omega
          obtain ⟨n, hn⟩ := ihb _ ha' hb'
          refine ⟨n + 1, ?_⟩
          rw [crawlLoop.eq_def, dif_neg hdone]
          unfold crawlLoopFuel
          rw [if_neg hdone]
          exact hn

theorem crawlLoop_reaches (cfg : Config) (o : Oracles) (bd : String) (s : St) :
    ∃ n, crawlLoopFuel cfg o bd n s = some (crawlLoop cfg o bd s) :=
  crawlLoop_reaches_aux cfg o bd _ _ s (Nat.le_refl _) (Nat.le_refl _)

/-- Any step-preserved property transfers to the loop's final state. -/
theorem crawlLoop_inv (cfg : Config) (o : Oracles) (bd : String) (P : St → Prop)
    (hstep : ∀ s, ¬ crawlDone cfg s → P s → P (stepCrawl cfg o bd s))
    (s : St) (hP : P s) : P (crawlLoop cfg o bd s) := by
  obtain ⟨n, hn⟩ := crawlLoop_reaches cfg o bd s
  exact crawlLoopFuel_inv cfg o bd P hstep n s _ hn hP

/-! ### Where frontier entries, batch entries and log entries come from -/

theorem enqueueLinks_toVisit_mem (cfg : Config) (bd : String) (d : Nat) :
    ∀ (links : List String) (s : St) (p : String × Nat),
      p ∈ (enqueueLinks cfg bd d s links).to_visit →
      p ∈ s.to_visit ∨
        (p.2 = d + 1 ∧ (cfg.follow_external_links = true ∨ netloc p.1 = bd)) := by
  intro links
  induction links with
  | nil => intro s p h; exact Or.inl h
  | cons l rest ih =>
    intro s p h
    unfold enqueueLinks at h
    rcases ih _ p h with h' | h'
    · by_cases hc : l ∉ s.visited ∧ (cfg.follow_external_links ∨ netloc l = bd)
      · rw [if_pos hc] at h'
        simp only [List.mem_append, List.mem_singleton] at h'
        rcases h' with h'' | h''
        · exact Or.inl h''
        · right
          subst h''
          rcases hc.2 with hf | hn
          · exact ⟨rfl, Or.inl (by simpa using hf)⟩
          · exact ⟨rfl, Or.inr hn⟩
      · rw [if_neg hc] at h'
        exact Or.inl h'
    · exact Or.inr h'

@[simp] theorem processBatch_fetchLog (cfg : Config) (bd : String) :
    ∀ (l : List (CrawlResult × Nat)) (s : St),
      (processBatch cfg bd s l).fetchLog = s.fetchLog := by
  intro l
  induction l with
  | nil => intro s; rfl
  | cons p rest ih =>
    intro s
    unfold processBatch
    dsimp only
    split
    · rfl
    · split <;> simp [ih]

@[simp] theorem processBatch_visited (cfg : Config) (bd : String) :
    ∀ (l : List (CrawlResult × Nat)) (s : St),
      (processBatch cfg bd s l).visited = s.visited := by
  intro l
  induction l with
  | nil => intro s; rfl
  | cons p rest ih =>
    intro s
    unfold processBatch
    dsimp only
    split
    · rfl
    · split <;> simp [ih]

theorem processBatch_toVisit_mem (cfg : Config) (bd : String) :
    ∀ (l : List (CrawlResult × Nat)) (s : St) (p : String × Nat),
      p ∈ (processBatch cfg bd s l).to_visit →
      p ∈ s.to_visit ∨
        ((∃ d, d < cfg.max_depth ∧ p.2 = d + 1) ∧
          (cfg.follow_external_links = true ∨ netloc p.1 = bd)) := by
  intro l
  induction l with
  | nil => intro s p h; exact Or.inl h
  | cons q rest ih =>
    intro s p h
    unfold processBatch at h
    dsimp only at h
    split at h
    · exact Or.inl h
    · split at h
      · rename_i hdepth
        rcases ih _ p h with h' | h'
        · rcases enqueueLinks_toVisit_mem cfg bd q.2 q.1.links _ p h' with h'' | h''
          · exact Or.inl h''
          · exact Or.inr ⟨⟨q.2, hdepth, h''.1⟩, h''.2⟩
        · exact Or.inr h'
      · rcases ih _ p h with h' | h'
        · exact Or.inl h'
        · exact Or.inr h'

theorem takeBatch_mem_batch (k : Nat) :
    ∀ (tv : List (String × Nat)) (b : List (String × Nat)) (v : List String)
      (p : String × Nat), p ∈ (takeBatch k b v tv).1 → p ∈ b ∨ p ∈ tv := by
  intro tv
  induction tv with
  | nil => intro b v p h; simp [takeBatch] at h; exact Or.inl h
  | cons e rest ih =>
    obtain ⟨url, depth⟩ := e
    intro b v p h
    unfold takeBatch at h
    split at h
    · exact Or.inl h
    · split at h
      · rcases ih b v p h with h' | h'
        · exact Or.inl h'
        · exact Or.inr (List.mem_cons_of_mem _ h')
      · rcases ih _ _ p h with h' | h'
        · simp only [List.mem_append, List.mem_singleton] at h'
          rcases h' with h'' | h''
          · exact Or.inl h''
          · exact Or.inr (by simp [h''])
        · exact Or.inr (List.mem_cons_of_mem _ h')

theorem takeBatch_mem_rest (k : Nat) :
    ∀ (tv : List (String × Nat)) (b : List (String × Nat)) (v : List String)
      (p : String × Nat), p ∈ (takeBatch k b v tv).2.2 → p ∈ tv := by
  intro tv
  induction tv with
  | nil => intro b v p h; simp [takeBatch] at h
  | cons e rest ih =>
    obtain ⟨url, depth⟩ := e
    intro b v p h
    unfold takeBatch at h
    split at h
    · exact h
    · split at h
      · exact List.mem_cons_of_mem _ (ih _ _ p h)
      · exact List.mem_cons_of_mem _ (ih _ _ p h)

/-! ### Budget invariant: the step keeps `len(results) ≤ max_urls` -/

theorem processBatch_results_bound (cfg : Config) (bd : String) :
    ∀ (l : List (CrawlResult × Nat)) (s : St),
      s.results.length < cfg.max_urls →
      (processBatch cfg bd s l).results.length ≤ cfg.max_urls := by
  intro l
  induction l with
  | nil => intro s h; exact Nat.le_of_lt h
  | cons p rest ih =>
    intro s h
    unfold processBatch
    dsimp only
    split
    · simp
      omega
    · rename_i hcont
      simp at hcont
      split
      · refine ih _ ?_
        simp
        omega
      · refine ih _ ?_
        simp
        omega

theorem stepCrawl_bound (cfg : Config) (o : Oracles) (bd : String) (s : St)
    (hnd : ¬ crawlDone cfg s) (_ : s.results.length ≤ cfg.max_urls) :
    (stepCrawl cfg o bd s).results.length ≤ cfg.max_urls := by
  have hlt : s.results.length < cfg.max_urls := by
    unfold crawlDone at hnd
    push_neg at hnd
    exact hnd.2
  have htvne : s.to_visit ≠ [] := by
    unfold crawlDone at hnd
    push_neg at hnd
    exact hnd.1
  unfold stepCrawl
  split
  · dsimp only
    split
    · simpa using Nat.le_of_lt hlt
    · exact processBatch_results_bound cfg bd _ _ (by simpa using hlt)
  · rcases htvm : s.to_visit with _ | ⟨⟨url, depth⟩, rest⟩
    · exact absurd htvm htvne
    · try dsimp only
      by_cases hv : url ∈ s.visited
      · rw [if_pos hv]
        simpa using Nat.le_of_lt hlt
      · rw [if_neg hv]
        try dsimp only
        split
        · simp
          omega
        · split
          · simp
            omega
          · simp
            omega

/-! ### Depth invariant: every frontier entry and every dispatched entry
stays within `max_depth` -/

theorem stepCrawl_depth_inv (cfg : Config) (o : Oracles) (bd : String) (s : St)
    (hnd : ¬ crawlDone cfg s) (h : DepthInv cfg s) :
    DepthInv cfg (stepCrawl cfg o bd s) := by
  obtain ⟨htv, hlog⟩ := h
  have htvne : s.to_visit ≠ [] := by
    unfold crawlDone at hnd
    push_neg at hnd
    exact hnd.1
  unfold stepCrawl
  split
  · dsimp only
    split
    · exact ⟨fun p hp => htv p (takeBatch_mem_rest _ _ _ _ p hp), hlog⟩
    · constructor
      · intro p hp
        rcases processBatch_toVisit_mem cfg bd _ _ p hp with h' | h'
        · exact htv p (takeBatch_mem_rest _ _ _ _ p h')
        · obtain ⟨⟨d, hd, hp2⟩, _⟩ := h'
          omega
      · intro p hp
        rw [processBatch_fetchLog] at hp
        simp only [List.mem_append] at hp
        rcases hp with h' | h'
        · exact hlog p h'
        · exact htv p ((takeBatch_mem_batch _ _ _ _ p h').resolve_left (by simp))
  · rcases htvm : s.to_visit with _ | ⟨⟨url, depth⟩, rest⟩
    · exact absurd htvm htvne
    · have hrest : ∀ p ∈ rest, p.2 ≤ cfg.max_depth := by
        intro p hp
        exact htv p (by rw [htvm]; exact List.mem_cons_of_mem _ hp)
      have hhead : depth ≤ cfg.max_depth := htv (url, depth) (by rw [htvm]; simp)
      try dsimp only
      by_cases hv : url ∈ s.visited
      · rw [if_pos hv]
        exact ⟨hrest, hlog⟩
      · rw [if_neg hv]
        try dsimp only
        have hlog' : ∀ p ∈ s.fetchLog ++ [(url, depth)], p.2 ≤ cfg.max_depth := by
          intro p hp
          simp only [List.mem_append, List.mem_singleton] at hp
          rcases hp with h' | h'
          · exact hlog p h'
          · subst h'; exact hhead
        split
        · exact ⟨hrest, hlog'⟩
        · split
          · rename_i hdepth
            constructor
            · intro p hp
              rcases enqueueLinks_toVisit_mem cfg bd depth _ _ p hp with h' | h'
              · exact hrest p h'
              · omega
            · intro p hp
              rw [enqueueLinks_fetchLog] at hp
              exact hlog' p hp
          · exact ⟨hrest, hlog'⟩

/-! ### Scope invariant: with `follow_external_links=False` every frontier
entry and dispatched entry stays on the base domain -/

theorem stepCrawl_scope_inv (cfg : Config) (o : Oracles) (bd : String) (s : St)
    (hf : cfg.follow_external_links = false)
    (hnd : ¬ crawlDone cfg s) (h : ScopeInv bd s) :
    ScopeInv bd (stepCrawl cfg o bd s) := by
  obtain ⟨htv, hlog⟩ := h
  have htvne : s.to_visit ≠ [] := by
    unfold crawlDone at hnd
    push_neg at hnd
    exact hnd.1
  unfold stepCrawl
  split
  · dsimp only
    split
    · exact ⟨fun p hp => htv p (takeBatch_mem_rest _ _ _ _ p hp), hlog⟩
    · constructor
      · intro p hp
        rcases processBatch_toVisit_mem cfg bd _ _ p hp with h' | h'
        · exact htv p (takeBatch_mem_rest _ _ _ _ p h')
        · rcases h'.2 with hfe | hn
          · rw [hf] at hfe; cases hfe
          · exact hn
      · intro p hp
        rw [processBatch_fetchLog] at hp
        simp only [List.mem_append] at hp
        rcases hp with h' | h'
        · exact hlog p h'
        · exact htv p ((takeBatch_mem_batch _ _ _ _ p h').resolve_left (by simp))
  · rcases htvm : s.to_visit with _ | ⟨⟨url, depth⟩, rest⟩
    · exact absurd htvm htvne
    · have hrest : ∀ p ∈ rest, netloc p.1 = bd := by
        intro p hp
        exact htv p (by rw [htvm]; exact List.mem_cons_of_mem _ hp)
      have hhead : netloc url = bd := htv (url, depth) (by rw [htvm]; simp)
      try dsimp only
      by_cases hv : url ∈ s.visited
      · rw [if_pos hv]
        exact ⟨hrest, hlog⟩
      · rw [if_neg hv]
        try dsimp only
        have hlog' : ∀ p ∈ s.fetchLog ++ [(url, depth)], netloc p.1 = bd := by
          intro p hp
          simp only [List.mem_append, List.mem_singleton] at hp
          rcases hp with h' | h'
          · exact hlog p h'
          · subst h'; exact hhead
        split
        · exact ⟨hrest, hlog'⟩
        · split
          · constructor
            · intro p hp
              rcases enqueueLinks_toVisit_mem cfg bd depth _ _ p hp with h' | h'
              · exact hrest p h'
              · rcases h'.2 with hfe | hn
                · rw [hf] at hfe; cases hfe
                · exact hn
            · intro p hp
              rw [enqueueLinks_fetchLog] at hp
              exact hlog' p hp
          · exact ⟨hrest, hlog'⟩

/-! ### Dedup invariant: the dispatched URLs are pairwise distinct strings,
and each one is in `visited` -/

theorem takeBatch_inv (k : Nat) :
    ∀ (tv : List (String × Nat)) (b : List (String × Nat)) (v : List String),
      (b.map Prod.fst).Nodup → (∀ u ∈ b.map Prod.fst, u ∈ v) →
      ((takeBatch k b v tv).1.map Prod.fst).Nodup ∧
        (∀ u ∈ (takeBatch k b v tv).1.map Prod.fst, u ∈ (takeBatch k b v tv).2.1) ∧
        (∀ u ∈ v, u ∈ (takeBatch k b v tv).2.1) ∧
        (∀ u ∈ (takeBatch k b v tv).1.map Prod.fst, u ∈ b.map Prod.fst ∨ u ∉ v) := by
  intro tv
  induction tv with
  | nil =>
    intro b v hnd hbv
    exact ⟨hnd, hbv, fun u hu => hu, fun u hu => Or.inl hu⟩
  | cons e rest ih =>
    obtain ⟨url, depth⟩ := e
    intro b v hnd hbv
    unfold takeBatch
    split
    · exact ⟨hnd, hbv, fun u hu => hu, fun u hu => Or.inl hu⟩
    · split
      · exact ih b v hnd hbv
      · rename_i hv
        have hurlb : url ∉ b.map Prod.fst := fun hc => hv (hbv url hc)
        have hnd' : ((b ++ [(url, depth)]).map Prod.fst).Nodup := by
          rw [List.map_append]
          simp [List.nodup_append, hnd, hurlb]
        have hbv' : ∀ u ∈ (b ++ [(url, depth)]).map Prod.fst, u ∈ url :: v := by
          intro u hu
          rw [List.map_append] at hu
          simp only [List.mem_append, List.map_cons, List.map_nil,
            List.mem_singleton] at hu
          rcases hu with h' | h'
          · exact List.mem_cons_of_mem _ (hbv u h')
          · simp [h']
        obtain ⟨h1, h2, h3, h4⟩ := ih (b ++ [(url, depth)]) (url :: v) hnd' hbv'
        refine ⟨h1, h2, fun u hu => h3 u (List.mem_cons_of_mem _ hu), ?_⟩
        intro u hu
        rcases h4 u hu with h' | h'
        · rw [List.map_append] at h'
          simp only [List.mem_append, List.map_cons, List.map_nil,
            List.mem_singleton] at h'
          rcases h' with h'' | h''
          · exact Or.inl h''
          · subst h''; exact Or.inr hv
        · exact Or.inr fun huv => h' (List.mem_cons_of_mem _ huv)

theorem stepCrawl_dedup_inv (cfg : Config) (o : Oracles) (bd : String) (s : St)
    (hnd : ¬ crawlDone cfg s) (h : DedupInv s) :
    DedupInv (stepCrawl cfg o bd s) := by
  obtain ⟨hlnd, hlv⟩ := h
  have htvne : s.to_visit ≠ [] := by
    unfold crawlDone at hnd
    push_neg at hnd
    exact hnd.1
  unfold stepCrawl
  split
  · dsimp only
    obtain ⟨h1, h2, h3, h4⟩ :=
      takeBatch_inv cfg.concurrent_requests s.to_visit [] s.visited
        (by simp) (by simp)
    split
    · exact ⟨hlnd, fun u hu => h3 u (hlv u hu)⟩
    · constructor
      · rw [processBatch_fetchLog]
        dsimp only
        rw [List.map_append, List.nodup_append]
        refine ⟨hlnd, h1, ?_⟩
        intro u hu hu'
        rcases h4 u hu' with h' | h'
        · simp at h'
        · exact h' (hlv u hu)
      · intro u hu
        rw [processBatch_fetchLog] at hu
        rw [processBatch_visited]
        dsimp only at hu ⊢
        rw [List.map_append, List.mem_append] at hu
        rcases hu with h' | h'
        · exact h3 u (hlv u h')
        · exact h2 u h'
  · rcases htvm : s.to_visit with _ | ⟨⟨url, depth⟩, rest⟩
    · exact absurd htvm htvne
    · try dsimp only
      by_cases hv : url ∈ s.visited
      · rw [if_pos hv]
        exact ⟨hlnd, hlv⟩
      · rw [if_neg hv]
        try dsimp only
        have hnd' : ((s.fetchLog ++ [(url, depth)]).map Prod.fst).Nodup := by
          rw [List.map_append]
          simp only [List.map_cons, List.map_nil]
          rw [List.nodup_append]
          refine ⟨hlnd, by simp, ?_⟩
          intro u hu hu'
          simp only [List.mem_singleton] at hu'
          subst hu'
          exact hv (hlv u hu)
        have hmem' : ∀ u ∈ (s.fetchLog ++ [(url, depth)]).map Prod.fst,
            u ∈ url :: s.visited := by
          intro u hu
          rw [List.map_append, List.mem_append] at hu
          rcases hu with h' | h'
          · exact List.mem_cons_of_mem _ (hlv u h')
          · simp only [List.map_cons, List.map_nil, List.mem_singleton] at h'
            simp [h']
        split
        · exact ⟨hnd', hmem'⟩
        · split
          · constructor
            · rw [enqueueLinks_fetchLog]
              exact hnd'
            · intro u hu
              rw [enqueueLinks_fetchLog] at hu
              rw [enqueueLinks_visited]
              exact hmem' u hu
          · exact ⟨hnd', hmem'⟩

/-- Along the loop, `results` never shrinks. -/
theorem crawlLoop_results_le (cfg : Config) (o : Oracles) (bd : String) (s : St) :
    s.results.length ≤ (crawlLoop cfg o bd s).results.length := by
  refine crawlLoop_inv cfg o bd (fun t => s.results.length ≤ t.results.length)
    ?_ s (Nat.le_refl _)
  intro s' hnd hP
  rcases stepCrawl_measure cfg o bd s' hnd with hlt | ⟨heq, _⟩
  · omega
  · rw [show (stepCrawl cfg o bd s').results = s'.results from heq]
    exact hP

/-! ### The first iteration on a fresh seed state -/

/-- With `max_depth = 0`, the first iteration fetches exactly the seed and
leaves an empty frontier — in both execution strategies. -/
theorem stepCrawl_seed (cfg : Config) (o : Oracles) (bd : String) (s0 : String)
    (hd : cfg.max_depth = 0) :
    (stepCrawl cfg o bd { to_visit := [(s0, 0)] }).to_visit = [] ∧
    (stepCrawl cfg o bd { to_visit := [(s0, 0)] }).fetchLog = [(s0, 0)] := by
  unfold stepCrawl
  split
  · rename_i hconc
    dsimp only
    have htb : takeBatch cfg.concurrent_requests ([] : List (String × Nat))
        ([] : List String) [(s0, 0)] = ([(s0, 0)], [s0], []) := by
      unfold takeBatch
      rw [if_neg (by simp; omega)]
      rw [if_neg (by simp)]
      simp [takeBatch]
    rw [htb]
    rw [if_neg (by simp)]
    simp only [List.map_cons, List.map_nil]
    simp only [runBatch]
    simp only [processBatch, hd]
    split <;> simp
  · dsimp only
    rw [if_neg (by simp)]
    simp only [hd]
    split <;> simp

/-- The first iteration on a fresh seed state records exactly one result —
in both execution strategies. -/
theorem stepCrawl_seed_results (cfg : Config) (o : Oracles) (bd : String) (s0 : String) :
    (stepCrawl cfg o bd { to_visit := [(s0, 0)] }).results.length = 1 := by
  unfold stepCrawl
  split
  · rename_i hconc
    dsimp only
    have htb : takeBatch cfg.concurrent_requests ([] : List (String × Nat))
        ([] : List String) [(s0, 0)] = ([(s0, 0)], [s0], []) := by
      unfold takeBatch
      rw [if_neg (by simp; omega)]
      rw [if_neg (by simp)]
      simp [takeBatch]
    rw [htb]
    rw [if_neg (by simp)]
    simp only [List.map_cons, List.map_nil]
    simp only [runBatch]
    simp only [processBatch]
    split
    · simp
    · split <;> simp
  · dsimp only
    rw [if_neg (by simp)]
    split
    · simp
    · split <;> simp

/-! ### Claim theorems -/

/-- C1: for every crawl invocation — any configuration (hence both the
single-threaded `concurrent_requests = 1` and the batched concurrent
strategy) and any transport/extractor behavior — the number of accumulated
results never exceeds `max_urls`: the bound is preserved by every iteration
of the traversal loop (first conjunct) and therefore holds for the returned
result sequence (second conjunct). -/
theorem C1_budget_invariant (cfg : Config) (o : Oracles) (seed : String) :
    (∀ s : St, ¬ crawlDone cfg s → s.results.length ≤ cfg.max_urls →
      (stepCrawl cfg o (netloc (clean_url seed)) s).results.length ≤ cfg.max_urls) ∧
    (crawl cfg o seed).length ≤ cfg.max_urls := by
  constructor
  · exact fun s hnd hP => stepCrawl_bound cfg o _ s hnd hP
  · unfold crawl crawlFinal
    split
    · simp
    · dsimp only
      exact crawlLoop_inv cfg o (netloc (clean_url seed))
        (fun t => t.results.length ≤ cfg.max_urls)
        (fun s hnd hP => stepCrawl_bound cfg o _ s hnd hP)
        _ (by simp)

/-- Witness for C1: a concrete non-terminal state where one iteration keeps
the bound. -/
theorem C1_budget_invariant_witness :
    ¬ crawlDone { max_urls := 5 : Config } { to_visit := [("http://x.com/", 1)] } ∧
    ({ to_visit := [("http://x.com/", 1)] } : St).results.length ≤
      ({ max_urls := 5 : Config }).max_urls ∧
    (stepCrawl { max_urls := 5 } ⟨fun _ => .timeout, fun _ => "", fun _ => "",
        fun _ _ => [], fun _ => .exn⟩ (netloc (clean_url "http://a.com/"))
      { to_visit := [("http://x.com/", 1)] }).results.length ≤
      ({ max_urls := 5 : Config }).max_urls :=
  ⟨by decide, by decide,
    (C1_budget_invariant { max_urls := 5 } ⟨fun _ => .timeout, fun _ => "",
      fun _ => "", fun _ _ => [], fun _ => .exn⟩ "http://a.com/").1
      { to_visit := [("http://x.com/", 1)] } (by decide) (by decide)⟩

/-- C2: no fetch ever happens for a frontier entry deeper than `max_depth`
(every entry handed to `_fetch_url`, recorded in the ghost `fetchLog`,
satisfies `depth ≤ max_depth`, because links are enqueued at `depth+1` only
when `depth < max_depth`); and with `max_depth = 0` exactly the seed is
fetched, regardless of the links found. -/
theorem C2_depth_invariant (cfg : Config) (o : Oracles) (seed : String) :
    (∀ p ∈ (crawlFinal cfg o seed).fetchLog, p.2 ≤ cfg.max_depth) ∧
    (cfg.max_depth = 0 → 1 ≤ cfg.max_urls → is_valid_url seed = true →
      (crawlFinal cfg o seed).fetchLog = [(clean_url seed, 0)]) := by
  constructor
  · unfold crawlFinal
    split
    · simp
    · dsimp only
      refine (crawlLoop_inv cfg o (netloc (clean_url seed)) (DepthInv cfg)
        (fun s hnd h => stepCrawl_depth_inv cfg o _ s hnd h) _ ⟨?_, by simp⟩).2
      intro p hp
      simp only [List.mem_singleton] at hp
      subst hp
      exact Nat.zero_le _
  · intro hd hmu hvalid
    unfold crawlFinal
    rw [if_neg (by simp [hvalid])]
    dsimp only
    have hnd : ¬ crawlDone cfg ({ to_visit := [(clean_url seed, 0)] } : St) := by
      unfold crawlDone
      simp
      omega
    rw [crawlLoop.eq_def, dif_neg hnd]
    have hdone2 : crawlDone cfg
        (stepCrawl cfg o (netloc (clean_url seed)) { to_visit := [(clean_url seed, 0)] }) :=
      Or.inl (stepCrawl_seed cfg o (netloc (clean_url seed)) (clean_url seed) hd).1
    rw [crawlLoop.eq_def, dif_pos hdone2]
    exact (stepCrawl_seed cfg o (netloc (clean_url seed)) (clean_url seed) hd).2

/-- Witness for C2: `max_depth = 0`, a valid seed, and a page full of links —
exactly the seed is fetched. -/
theorem C2_depth_invariant_witness :
    ({ max_depth := 0, max_urls := 10 : Config }).max_depth = 0 ∧
    1 ≤ ({ max_depth := 0, max_urls := 10 : Config }).max_urls ∧
    is_valid_url "http://a.com/" = true ∧
    (crawlFinal { max_depth := 0, max_urls := 10 }
      ⟨fun u => .response u 200 [("Content-Type", "text/html")] "", fun _ => "",
        fun _ => "", fun _ _ => ["http://a.com/x", "http://a.com/y"],
        fun _ => .exn⟩ "http://a.com/").fetchLog = [(clean_url "http://a.com/", 0)] :=
  ⟨rfl, by decide, by decide,
    (C2_depth_invariant { max_depth := 0, max_urls := 10 }
      ⟨fun u => .response u 200 [("Content-Type", "text/html")] "", fun _ => "",
        fun _ => "", fun _ _ => ["http://a.com/x", "http://a.com/y"],
        fun _ => .exn⟩ "http://a.com/").2 rfl (by decide) (by decide)⟩

/-- C7: an invalid seed makes `crawl` return the empty sequence (the embedded
`crawl` is a total function, so nothing is raised), and it is the only
crawl-aborting condition: a valid seed with `max_urls ≥ 1` always produces at
least one outcome. -/
theorem C7_invalid_seed_aborts (cfg : Config) (o : Oracles) (seed : String) :
    (is_valid_url seed = false → crawl cfg o seed = []) ∧
    (is_valid_url seed = true → 1 ≤ cfg.max_urls → crawl cfg o seed ≠ []) := by
  constructor
  · intro hv
    unfold crawl crawlFinal
    rw [if_pos (by simp [hv])]
  · intro hv hmu
    unfold crawl crawlFinal
    rw [if_neg (by simp [hv])]
    dsimp only
    have hnd : ¬ crawlDone cfg ({ to_visit := [(clean_url seed, 0)] } : St) := by
      unfold crawlDone
      simp
      try omega
    rw [crawlLoop.eq_def, dif_neg hnd]
    intro hcontra
    have hlen := congrArg List.length hcontra
    simp only [List.length_nil] at hlen
    have h1 := stepCrawl_seed_results cfg o (netloc (clean_url seed)) (clean_url seed)
    have hle := crawlLoop_results_le cfg o (netloc (clean_url seed))
      (stepCrawl cfg o (netloc (clean_url seed)) { to_visit := [(clean_url seed, 0)] })
    omega

/-- Witness for C7: a seed with no scheme aborts with `[]`; a valid seed
yields a non-empty result. -/
theorem C7_invalid_seed_aborts_witness :
    is_valid_url "notaurl" = false ∧
    crawl {} ⟨fun _ => .timeout, fun _ => "", fun _ => "", fun _ _ => [],
      fun _ => .exn⟩ "notaurl" = [] ∧
    is_valid_url "http://a.com/" = true ∧
    1 ≤ ({} : Config).max_urls ∧
    crawl {} ⟨fun _ => .timeout, fun _ => "", fun _ => "", fun _ _ => [],
      fun _ => .exn⟩ "http://a.com/" ≠ [] :=
  ⟨by decide,
    (C7_invalid_seed_aborts {} ⟨fun _ => .timeout, fun _ => "", fun _ => "",
      fun _ _ => [], fun _ => .exn⟩ "notaurl").1 (by decide),
    by decide, by decide,
    (C7_invalid_seed_aborts {} ⟨fun _ => .timeout, fun _ => "", fun _ => "",
      fun _ _ => [], fun _ => .exn⟩ "http://a.com/").2 (by decide) (by decide)⟩

/-- C3 (amended): for every crawl — any configuration, any oracle behavior —
the URLs actually fetched (the frontier entries dispatched to `_fetch_url`)
are pairwise distinct as exact strings: a URL enters `visited` at the moment
it is selected and is never selected again.  Dedup is only string-level; the
claim's "by normalized form" fails (see the counterexample). -/
theorem C3_dedup_by_string (cfg : Config) (o : Oracles) (seed : String) :
    ((crawlFinal cfg o seed).fetchLog.map Prod.fst).Nodup := by
  unfold crawlFinal
  split
  · simp
  · dsimp only
    exact (crawlLoop_inv cfg o (netloc (clean_url seed)) DedupInv
      (fun s hnd h => stepCrawl_dedup_inv cfg o _ s hnd h) _ ⟨by simp, by simp⟩).1

/-- C3 as stated is false on the code: this crawl fetches
`http://a.com/p?b=2&a=1` and `http://a.com/p?a=1&b=2` as distinct strings
(links are never normalized — only the seed is), and the two outcomes
normalize to the same URL, so the outcomes are not pairwise distinct by
normalized form. -/
theorem C3_dedup_counterexample :
    ¬ (((crawl cexCfg c3Oracle "http://a.com").map
        (fun r => clean_url r.url)).Nodup) := by
  have hv : (!is_valid_url "http://a.com") = false := by decide
  unfold crawl crawlFinal
  rw [hv]
  simp only [Bool.false_eq_true, if_false]
  rw [crawlLoop.eq_def, dif_neg (by decide)]
  rw [crawlLoop.eq_def, dif_neg (by decide)]
  rw [crawlLoop.eq_def, dif_neg (by decide)]
  rw [crawlLoop.eq_def, dif_pos (by decide)]
  decide

/-- C6 (amended): with `follow_external_links = false` a link is enqueued
only if its domain equals the seed's base domain, so every fetched frontier
entry — the seed included — is on the seed's domain.  The claim's outcome
form is wrong about redirects: an outcome's domain comes from the
post-redirect `final_url`, so any fetched page that redirects cross-domain,
not only the seed, yields an outcome with a foreign domain (see the
counterexample). -/
theorem C6_scope_invariant (cfg : Config) (o : Oracles) (seed : String)
    (hf : cfg.follow_external_links = false) :
    ∀ p ∈ (crawlFinal cfg o seed).fetchLog, netloc p.1 = netloc (clean_url seed) := by
  unfold crawlFinal
  split
  · simp
  · dsimp only
    refine (crawlLoop_inv cfg o (netloc (clean_url seed))
      (ScopeInv (netloc (clean_url seed)))
      (fun s hnd h => stepCrawl_scope_inv cfg o _ s hf hnd h) _ ⟨?_, by simp⟩).2
    intro p hp
    simp only [List.mem_singleton] at hp
    subst hp
    rfl

/-- Witness for C6 (amended): a concrete in-scope crawl. -/
theorem C6_scope_invariant_witness :
    cexCfg.follow_external_links = false ∧
    ∀ p ∈ (crawlFinal cexCfg c3Oracle "http://a.com").fetchLog,
      netloc p.1 = netloc (clean_url "http://a.com") :=
  ⟨rfl, C6_scope_invariant cexCfg c3Oracle "http://a.com" rfl⟩

/-- C6 as stated is false on the code: in this `follow_external_links=False`
crawl, a non-seed outcome (`http://a.com/r`, which redirected to
`http://b.com/x`) has a derivable domain `b.com` different from the seed's
`a.com` — the "sole exception" is not only the seed. -/
theorem C6_scope_counterexample :
    ¬ (∀ r ∈ (crawl cexCfg c6Oracle "http://a.com").drop 1,
        netloc r.url = "" ∨ netloc r.url = netloc (clean_url "http://a.com")) := by
  have hv : (!is_valid_url "http://a.com") = false := by decide
  unfold crawl crawlFinal
  rw [hv]
  simp only [Bool.false_eq_true, if_false]
  rw [crawlLoop.eq_def, dif_neg (by decide)]
  rw [crawlLoop.eq_def, dif_neg (by decide)]
  rw [crawlLoop.eq_def, dif_pos (by decide)]
  decide

/-- C4 evaluated at the failing input (code bug): when reading
`http://a.com/robots.txt` raises, `_get_robots_parser` caches a fresh
`RobotFileParser` — the source comment calls it "an empty parser that allows
everything" — but CPython's `can_fetch` returns `False` for a parser that
never read a file (`last_checked` unset), so the cached entry is deny-all:
the first fetch on the origin is blocked, the fallback parser is the cached
entry for the origin, and a second fetch against that cache is blocked
too — the opposite of the claimed permissive degradation. -/
theorem C4_robots_failure_blocks :
    (fetchUrl { respect_robots_txt := true } c4Oracle {} "http://a.com/page").2.error
        = "Blocked by robots.txt" ∧
    lookupA "http://a.com"
        (fetchUrl { respect_robots_txt := true } c4Oracle {} "http://a.com/page").1.robots_cache
        = some {} ∧
    (fetchUrl { respect_robots_txt := true } c4Oracle
        (fetchUrl { respect_robots_txt := true } c4Oracle {} "http://a.com/page").1
        "http://a.com/other").2.error = "Blocked by robots.txt" :=
  ⟨by decide, by decide, by decide⟩

/-- C5: `_fetch_url` is a total function — every terminal condition is
encoded in the returned outcome, nothing is raised — and the outcome follows
the §4.4 classification: (1) invalid URL → status 0, `InvalidURL`;
(2) robots-disallowed → status 0, `RobotsDisallowed`; (3) transport timeout
→ `Timeout`; (4) connection failure → `ConnectionError`; (5) other transport
exception → `Unknown(msg)`; (6) non-200 → the status code with
`HTTPError(code)` and no extraction (empty title/text/links); (7) 200
non-HTML → status 200 with `NotHTML(content_type)` and no extraction;
(8) 200 HTML → extracted title, text and links and empty error; and (9) a
404 seed yields a single outcome with status 404, the HTTP error, and empty
links (Scenario B). -/
theorem C5_fetch_classification (cfg : Config) (o : Oracles) (st : CrawlerState)
    (url : String) :
    (is_valid_url url = false →
      (fetchUrl cfg o st url).2 =
        { url := url, status_code := 0, error := "Invalid URL" }) ∧
    (is_valid_url url = true → (canFetchCheck cfg o st url).2 = false →
      (fetchUrl cfg o st url).2 =
        { url := url, status_code := 0, error := "Blocked by robots.txt" }) ∧
    (is_valid_url url = true → (canFetchCheck cfg o st url).2 = true →
      o.transport url = .timeout →
      (fetchUrl cfg o st url).2 =
        { url := url, status_code := 0, error := "Request timed out" }) ∧
    (is_valid_url url = true → (canFetchCheck cfg o st url).2 = true →
      o.transport url = .connectionError →
      (fetchUrl cfg o st url).2 =
        { url := url, status_code := 0, error := "Connection error" }) ∧
    (∀ m, is_valid_url url = true → (canFetchCheck cfg o st url).2 = true →
      o.transport url = .otherError m →
      (fetchUrl cfg o st url).2 =
        { url := url, status_code := 0, error := "Error: " ++ m }) ∧
    (∀ f code hs body, is_valid_url url = true →
      (canFetchCheck cfg o st url).2 = true →
      o.transport url = .response f code hs body → code ≠ 200 →
      (fetchUrl cfg o st url).2 =
        { url := f, status_code := code, headers := hs,
          error := "HTTP error: " ++ toString code }) ∧
    (∀ f hs body, is_valid_url url = true →
      (canFetchCheck cfg o st url).2 = true →
      o.transport url = .response f 200 hs body →
      isHtmlContentType (contentTypeOf hs) = false →
      (fetchUrl cfg o st url).2 =
        { url := f, status_code := 200, headers := hs,
          error := "Not an HTML page (Content-Type: " ++ contentTypeOf hs ++ ")" }) ∧
    (∀ f hs body, is_valid_url url = true →
      (canFetchCheck cfg o st url).2 = true →
      o.transport url = .response f 200 hs body →
      isHtmlContentType (contentTypeOf hs) = true →
      (fetchUrl cfg o st url).2 =
        { url := f, status_code := 200, title := o.extract_title body,
          content := o.extract_text body, links := o.extract_links body url,
          headers := hs, error := "" }) ∧
    crawl cexCfg c5Oracle "http://a.com" =
      [{ url := "http://a.com/", status_code := 404, error := "HTTP error: 404" }] := by
  refine ⟨?_, ?_, ?_, ?_, ?_, ?_, ?_, ?_, ?_⟩
  · intro hv
    simp [fetchUrl, hv]
  · intro hv hcf
    simp [fetchUrl, hv, hcf]
  · intro hv hcf htr
    simp [fetchUrl, hv, hcf, htr]
  · intro hv hcf htr
    simp [fetchUrl, hv, hcf, htr]
  · intro m hv hcf htr
    simp [fetchUrl, hv, hcf, htr]
  · intro f code hs body hv hcf htr hcode
    simp [fetchUrl, hv, hcf, htr, hcode]
  · intro f hs body hv hcf htr hct
    simp [fetchUrl, hv, hcf, htr, hct]
  · intro f hs body hv hcf htr hct
    simp [fetchUrl, hv, hcf, htr, hct]
  · have hv : (!is_valid_url "http://a.com") = false := by decide
    unfold crawl crawlFinal
    rw [hv]
    simp only [Bool.false_eq_true, if_false]
    rw [crawlLoop.eq_def, dif_neg (by decide)]
    rw [crawlLoop.eq_def, dif_pos (by decide)]
    decide

/-- Witness for C5: the invalid-URL and HTTP-error classifications at
concrete inputs. -/
theorem C5_fetch_classification_witness :
    is_valid_url "not a url" = false ∧
    (fetchUrl cexCfg c5Oracle {} "not a url").2 =
      { url := "not a url", status_code := 0, error := "Invalid URL" } ∧
    is_valid_url "http://a.com/x" = true ∧
    (canFetchCheck cexCfg c5Oracle {} "http://a.com/x").2 = true ∧
    c5Oracle.transport "http://a.com/x" = .response "http://a.com/x" 404 [] "" ∧
    (fetchUrl cexCfg c5Oracle {} "http://a.com/x").2 =
      { url := "http://a.com/x", status_code := 404,
        error := "HTTP error: 404" } :=
  ⟨by decide,
    (C5_fetch_classification cexCfg c5Oracle {} "not a url").1 (by decide),
    by decide, by decide, by decide,
    (C5_fetch_classification cexCfg c5Oracle {} "http://a.com/x").2.2.2.2.2.1
      "http://a.com/x" 404 [] "" (by decide) (by decide) (by decide) (by decide)⟩

/-- C9 as stated is false on the code: the function executed by the worker
threads (`executor.map(self._fetch_url, batch)`) is not a pure function of
the URL — here a single `_fetch_url` call mutates the shared crawler state
(it writes `last_request_time["a.com"]` from inside `_respect_rate_limit`,
and it also populates `robots_cache` when robots checks are on). -/
theorem C9_worker_purity_counterexample :
    (fetchUrl { respect_robots_txt := false, delay := 1 }
        ⟨fun _ => .timeout, fun _ => "", fun _ => "", fun _ _ => [], fun _ => .exn⟩
        { now := 5 } "http://a.com/x").1 ≠ ({ now := 5 } : CrawlerState) := by
  decide

theorem lookupA_insertA_self {β : Type} (k : String) (v : β) :
    ∀ l, lookupA k (insertA k v l) = some v := by
  intro l
  induction l with
  | nil => simp [insertA, lookupA]
  | cons p r ih =>
    obtain ⟨k', v'⟩ := p
    unfold insertA
    split
    · simp [lookupA]
    · rename_i hne
      unfold lookupA
      rw [if_neg hne]
      exact ih

theorem respectRateLimit_lookup (cfg : Config) (st : CrawlerState) (url : String) :
    lookupA (netloc url) (respectRateLimit cfg st url).last_request_time ≠ none := by
  unfold respectRateLimit
  dsimp only
  split <;> simp [lookupA_insertA_self]

/-- C9 (amended): the traversal bookkeeping (`visited`, `results`, the
frontier) is indeed updated only by the control fold after the batch join,
but the per-origin rate-limit clock and the robots cache are read AND
written inside `_fetch_url`, which the worker threads execute: every
permitted fetch records a `last_request_time` entry for the URL's origin
from within the worker, so workers are state mutations, not pure functions
`url → FetchOutcome`. -/
theorem C9_worker_writes_rate_clock (cfg : Config) (o : Oracles)
    (st : CrawlerState) (url : String)
    (hv : is_valid_url url = true)
    (hcf : (canFetchCheck cfg o st url).2 = true) :
    lookupA (netloc url) (fetchUrl cfg o st url).1.last_request_time ≠ none := by
  unfold fetchUrl
  rw [hv]
  simp only [Bool.not_true, Bool.false_eq_true, if_false]
  rw [hcf]
  simp only [Bool.not_true, Bool.false_eq_true, if_false]
  rcases htr : o.transport url with _ | _ | m | ⟨f, code, hs, body⟩
  · exact respectRateLimit_lookup cfg _ url
  · exact respectRateLimit_lookup cfg _ url
  · exact respectRateLimit_lookup cfg _ url
  · dsimp only
    split
    · split
      · exact respectRateLimit_lookup cfg _ url
      · exact respectRateLimit_lookup cfg _ url
    · exact respectRateLimit_lookup cfg _ url

/-- Witness for C9 (amended): a permitted concrete fetch leaves a rate-clock
entry for its origin. -/
theorem C9_worker_writes_rate_clock_witness :
    is_valid_url "http://a.com/x" = true ∧
    (canFetchCheck cexCfg c3Oracle {} "http://a.com/x").2 = true ∧
    lookupA (netloc "http://a.com/x")
      (fetchUrl cexCfg c3Oracle {} "http://a.com/x").1.last_request_time ≠ none :=
  ⟨by decide, by decide,
    C9_worker_writes_rate_clock cexCfg c3Oracle {} "http://a.com/x"
      (by decide) (by decide)⟩

/-! ### C8: the URL normalizer.  Character-level facts first. -/

theorem containsC_cons (c a : Char) (l : List Char) :
    containsC c (a :: l) = (decide (a = c) || containsC c l) := rfl

theorem takeBeforeC_cons (c a : Char) (l : List Char) :
    takeBeforeC c (a :: l) = if a = c then [] else a :: takeBeforeC c l := rfl

theorem dropThroughC_cons (c a : Char) (l : List Char) :
    dropThroughC c (a :: l) = if a = c then l else dropThroughC c l := rfl

theorem containsC_append (c : Char) :
    ∀ (a b : List Char), containsC c (a ++ b) = (containsC c a || containsC c b) := by
  intro a b
  induction a with
  | nil => simp [containsC]
  | cons x t ih => simp [containsC_cons, ih, Bool.or_assoc]

theorem takeBeforeC_not_contains (c : Char) :
    ∀ l, containsC c (takeBeforeC c l) = false := by
  intro l
  induction l with
  | nil => rfl
  | cons a t ih =>
    rw [takeBeforeC_cons]
    by_cases hac : a = c
    · rw [if_pos hac]; rfl
    · rw [if_neg hac, containsC_cons]
      simp [hac, ih]

theorem takeBeforeC_preserve (c d : Char) :
    ∀ l, containsC d l = false → containsC d (takeBeforeC c l) = false := by
  intro l
  induction l with
  | nil => intro _; rfl
  | cons a t ih =>
    intro h
    rw [containsC_cons] at h
    simp only [Bool.or_eq_false_iff, decide_eq_false_iff_not] at h
    rw [takeBeforeC_cons]
    by_cases hac : a = c
    · rw [if_pos hac]; rfl
    · rw [if_neg hac, containsC_cons]
      simp [h.1, ih h.2]

theorem dropThroughC_preserve (c d : Char) :
    ∀ l, containsC d l = false → containsC d (dropThroughC c l) = false := by
  intro l
  induction l with
  | nil => intro _; rfl
  | cons a t ih =>
    intro h
    rw [containsC_cons] at h
    simp only [Bool.or_eq_false_iff, decide_eq_false_iff_not] at h
    rw [dropThroughC_cons]
    by_cases hac : a = c
    · rw [if_pos hac]; exact h.2
    · rw [if_neg hac]; exact ih h.2

theorem takeBeforeC_of_not_contains (c : Char) :
    ∀ l, containsC c l = false → takeBeforeC c l = l := by
  intro l
  induction l with
  | nil => intro _; rfl
  | cons a t ih =>
    intro h
    rw [containsC_cons] at h
    simp only [Bool.or_eq_false_iff, decide_eq_false_iff_not] at h
    rw [takeBeforeC_cons, if_neg h.1, ih h.2]

theorem dropThroughC_of_not_contains (c : Char) :
    ∀ l, containsC c l = false → dropThroughC c l = [] := by
  intro l
  induction l with
  | nil => intro _; rfl
  | cons a t ih =>
    intro h
    rw [containsC_cons] at h
    simp only [Bool.or_eq_false_iff, decide_eq_false_iff_not] at h
    rw [dropThroughC_cons, if_neg h.1]
    exact ih h.2

theorem takeBeforeC_append_of_not_contains (c : Char) :
    ∀ p x, containsC c p = false → takeBeforeC c (p ++ x) = p ++ takeBeforeC c x := by
  intro p
  induction p with
  | nil => intro x _; rfl
  | cons a t ih =>
    intro x h
    rw [containsC_cons] at h
    simp only [Bool.or_eq_false_iff, decide_eq_false_iff_not] at h
    rw [List.cons_append, takeBeforeC_cons, if_neg h.1, ih x h.2, List.cons_append]

theorem dropThroughC_append_of_not_contains (c : Char) :
    ∀ p x, containsC c p = false → dropThroughC c (p ++ x) = dropThroughC c x := by
  intro p
  induction p with
  | nil => intro x _; rfl
  | cons a t ih =>
    intro x h
    rw [containsC_cons] at h
    simp only [Bool.or_eq_false_iff, decide_eq_false_iff_not] at h
    rw [List.cons_append, dropThroughC_cons, if_neg h.1]
    exact ih x h.2

theorem takeBeforeC_append_split (c : Char) (p x : List Char)
    (h : containsC c p = false) : takeBeforeC c (p ++ c :: x) = p := by
  rw [takeBeforeC_append_of_not_contains c p _ h, takeBeforeC_cons, if_pos rfl]
  simp

theorem dropThroughC_append_split (c : Char) (p x : List Char)
    (h : containsC c p = false) : dropThroughC c (p ++ c :: x) = x := by
  rw [dropThroughC_append_of_not_contains c p _ h, dropThroughC_cons, if_pos rfl]

theorem splitOnC_cons_ne (c a : Char) (l : List Char) (h : ¬ a = c) :
    splitOnC c (a :: l) =
      match splitOnC c l with
      | [] => [[a]]
      | hh :: r => (a :: hh) :: r := by
  show (if a = c then [] :: splitOnC c l else _) = _
  rw [if_neg h]

theorem splitOnC_cons_eq (c : Char) (l : List Char) :
    splitOnC c (c :: l) = [] :: splitOnC c l := by
  show (if c = c then [] :: splitOnC c l else _) = _
  rw [if_pos rfl]

theorem splitOnC_of_not_contains (c : Char) :
    ∀ l, containsC c l = false → splitOnC c l = [l] := by
  intro l
  induction l with
  | nil => intro _; rfl
  | cons a t ih =>
    intro h
    rw [containsC_cons] at h
    simp only [Bool.or_eq_false_iff, decide_eq_false_iff_not] at h
    rw [splitOnC_cons_ne c a t h.1, ih h.2]

theorem splitOnC_append_cons (c : Char) :
    ∀ p t, containsC c p = false → splitOnC c (p ++ c :: t) = p :: splitOnC c t := by
  intro p
  induction p with
  | nil =>
    intro t _
    rw [List.nil_append, splitOnC_cons_eq]
  | cons a p' ih =>
    intro t h
    rw [containsC_cons] at h
    simp only [Bool.or_eq_false_iff, decide_eq_false_iff_not] at h
    rw [List.cons_append, splitOnC_cons_ne c a _ h.1, ih t h.2]

theorem mem_splitOnC_not_contains (c : Char) :
    ∀ l s, s ∈ splitOnC c l → containsC c s = false := by
  intro l
  induction l with
  | nil =>
    intro s h
    simp [splitOnC] at h
    subst h
    rfl
  | cons a t ih =>
    intro s h
    by_cases hac : a = c
    · subst hac
      rw [splitOnC_cons_eq] at h
      rcases List.mem_cons.mp h with h' | h'
      · subst h'; rfl
      · exact ih s h'
    · rw [splitOnC_cons_ne c a t hac] at h
      rcases hsp : splitOnC c t with _ | ⟨hh, r⟩
      · rw [hsp] at h
        simp only [List.mem_singleton] at h
        subst h
        simp [containsC_cons, hac, containsC]
      · rw [hsp] at h
        rcases List.mem_cons.mp h with h' | h'
        · subst h'
          have hhh : containsC c hh = false := ih hh (by rw [hsp]; simp)
          simp [containsC_cons, hac, hhh]
        · exact ih s (by rw [hsp]; exact List.mem_cons_of_mem _ h')

theorem mem_splitOnC_preserve (c d : Char) :
    ∀ l s, containsC d l = false → s ∈ splitOnC c l → containsC d s = false := by
  intro l
  induction l with
  | nil =>
    intro s _ h
    simp [splitOnC] at h
    subst h
    rfl
  | cons a t ih =>
    intro s hd h
    rw [containsC_cons] at hd
    simp only [Bool.or_eq_false_iff, decide_eq_false_iff_not] at hd
    by_cases hac : a = c
    · subst hac
      rw [splitOnC_cons_eq] at h
      rcases List.mem_cons.mp h with h' | h'
      · subst h'; rfl
      · exact ih s hd.2 h'
    · rw [splitOnC_cons_ne c a t hac] at h
      rcases hsp : splitOnC c t with _ | ⟨hh, r⟩
      · rw [hsp] at h
        simp only [List.mem_singleton] at h
        subst h
        simp [containsC_cons, hd.1, containsC]
      · rw [hsp] at h
        rcases List.mem_cons.mp h with h' | h'
        · subst h'
          have hhh : containsC d hh = false := ih hh hd.2 (by rw [hsp]; simp)
          simp [containsC_cons, hd.1, hhh]
        · exact ih s hd.2 (by rw [hsp]; exact List.mem_cons_of_mem _ h')

theorem joinC_not_contains (c d : Char) (hdc : d ≠ c) :
    ∀ ls, (∀ s ∈ ls, containsC d s = false) → containsC d (joinC c ls) = false := by
  intro ls
  induction ls with
  | nil => intro _; rfl
  | cons x ls ih =>
    intro h
    cases ls with
    | nil => exact h x (by simp)
    | cons y r =>
      show containsC d (x ++ c :: joinC c (y :: r)) = false
      rw [containsC_append]
      have h1 : containsC d x = false := h x (by simp)
      have h2 : containsC d (joinC c (y :: r)) = false :=
        ih fun s hs => h s (List.mem_cons_of_mem _ hs)
      have hcd : ¬ c = d := fun hcd => hdc hcd.symm
      simp [containsC_cons, h1, h2, hcd]

theorem splitOnC_joinC (c : Char) :
    ∀ ls, ls ≠ [] → (∀ s ∈ ls, containsC c s = false) →
      splitOnC c (joinC c ls) = ls := by
  intro ls
  induction ls with
  | nil => intro h; exact absurd rfl h
  | cons x ls ih =>
    intro _ h
    cases ls with
    | nil => exact splitOnC_of_not_contains c x (h x (by simp))
    | cons y r =>
      show splitOnC c (x ++ c :: joinC c (y :: r)) = _
      rw [splitOnC_append_cons c x _ (h x (by simp))]
      rw [ih (by simp) fun s hs => h s (List.mem_cons_of_mem _ hs)]

/-! ### C8: the stable by-key sort -/

theorem keyLe_cons (a b : Char) (x y : List Char) :
    keyLe (a :: x) (b :: y) =
      if a.val < b.val then true
      else if b.val < a.val then false
      else keyLe x y := rfl

theorem keyLe_total : ∀ (a b : List Char), keyLe a b = false → keyLe b a = true := by
  intro a
  induction a with
  | nil => intro b h; simp [keyLe] at h
  | cons ca x ih =>
    intro b h
    cases b with
    | nil => rfl
    | cons cb y =>
      rw [keyLe_cons] at h
      rw [keyLe_cons]
      by_cases h1 : ca.val < cb.val
      · rw [if_pos h1] at h; cases h
      · rw [if_neg h1] at h
        by_cases h2 : cb.val < ca.val
        · rw [if_pos h2]
        · rw [if_neg h2] at h
          rw [if_neg h2, if_neg h1]
          exact ih y h

theorem insertPair_cons (p q : List Char × List Char)
    (r : List (List Char × List Char)) :
    insertPair p (q :: r) =
      if keyLe p.1 q.1 then p :: q :: r else q :: insertPair p r := rfl

theorem insertPair_mem :
    ∀ (l : List (List Char × List Char)) (p q : List Char × List Char),
      q ∈ insertPair p l → q = p ∨ q ∈ l := by
  intro l
  induction l with
  | nil =>
    intro p q h
    simp [insertPair] at h
    exact Or.inl h
  | cons e r ih =>
    intro p q h
    rw [insertPair_cons] at h
    split at h
    · rcases List.mem_cons.mp h with h' | h'
      · exact Or.inl h'
      · exact Or.inr h'
    · rcases List.mem_cons.mp h with h' | h'
      · exact Or.inr (by simp [h'])
      · rcases ih p q h' with h'' | h''
        · exact Or.inl h''
        · exact Or.inr (List.mem_cons_of_mem _ h'')

theorem sortPairs_mem :
    ∀ (l : List (List Char × List Char)) (q : List Char × List Char),
      q ∈ sortPairs l → q ∈ l := by
  intro l
  induction l with
  | nil => intro q h; simp [sortPairs] at h
  | cons p r ih =>
    intro q h
    rcases insertPair_mem _ p q h with h' | h'
    · simp [h']
    · exact List.mem_cons_of_mem _ (ih q h')

theorem pairsSorted_tail (p : List Char × List Char)
    (l : List (List Char × List Char)) (h : pairsSorted (p :: l)) :
    pairsSorted l := by
  cases l with
  | nil => trivial
  | cons q r => exact h.2

theorem insertPair_pairsSorted :
    ∀ (l : List (List Char × List Char)) (p : List Char × List Char),
      pairsSorted l → pairsSorted (insertPair p l) := by
  intro l
  induction l with
  | nil => intro p _; trivial
  | cons q r ih =>
    intro p h
    rw [insertPair_cons]
    split
    · rename_i hle
      exact ⟨hle, h⟩
    · rename_i hle
      have hqp : keyLe q.1 p.1 = true :=
        keyLe_total _ _ (Bool.eq_false_iff.mpr hle)
      cases r with
      | nil => exact ⟨hqp, trivial⟩
      | cons q' r' =>
        by_cases hle' : keyLe p.1 q'.1 = true
        · have heq : insertPair p (q' :: r') = p :: q' :: r' := by
            rw [insertPair_cons, if_pos hle']
          rw [heq]
          exact ⟨hqp, hle', h.2⟩
        · have heq : insertPair p (q' :: r') = q' :: insertPair p r' := by
            rw [insertPair_cons, if_neg hle']
          rw [heq]
          have h2 := ih p (pairsSorted_tail q _ h)
          rw [heq] at h2
          exact ⟨h.1, h2⟩

theorem sortPairs_pairsSorted : ∀ (l : List (List Char × List Char)),
    pairsSorted (sortPairs l) := by
  intro l
  induction l with
  | nil => trivial
  | cons p r ih => exact insertPair_pairsSorted _ p ih

theorem sortPairs_of_sorted : ∀ (l : List (List Char × List Char)),
    pairsSorted l → sortPairs l = l := by
  intro l
  induction l with
  | nil => intro _; rfl
  | cons p r ih =>
    intro h
    show insertPair p (sortPairs r) = p :: r
    rw [ih (pairsSorted_tail p r h)]
    cases r with
    | nil => rfl
    | cons q r' =>
      rw [insertPair_cons, if_pos h.1]

/-! ### C8: query parsing/encoding and the path fix -/

theorem parseQuery_key_no_eq (q : List Char) :
    ∀ p ∈ parseQuery q, containsC '=' p.1 = false := by
  intro p hp
  unfold parseQuery at hp
  simp only [List.mem_map, List.mem_filter] at hp
  obtain ⟨seg, ⟨_, _⟩, hpe⟩ := hp
  subst hpe
  exact takeBeforeC_not_contains '=' seg

theorem parseQuery_no_amp (q : List Char) :
    ∀ p ∈ parseQuery q, containsC '&' p.1 = false ∧ containsC '&' p.2 = false := by
  intro p hp
  unfold parseQuery at hp
  simp only [List.mem_map, List.mem_filter] at hp
  obtain ⟨seg, ⟨hseg, _⟩, hpe⟩ := hp
  subst hpe
  have hs := mem_splitOnC_not_contains '&' q seg hseg
  exact ⟨takeBeforeC_preserve '=' '&' seg hs, dropThroughC_preserve '=' '&' seg hs⟩

theorem parseQuery_preserve (d : Char) (q : List Char) (hd : containsC d q = false) :
    ∀ p ∈ parseQuery q, containsC d p.1 = false ∧ containsC d p.2 = false := by
  intro p hp
  unfold parseQuery at hp
  simp only [List.mem_map, List.mem_filter] at hp
  obtain ⟨seg, ⟨hseg, _⟩, hpe⟩ := hp
  subst hpe
  have hs := mem_splitOnC_preserve '&' d q seg hd hseg
  exact ⟨takeBeforeC_preserve '=' d seg hs, dropThroughC_preserve '=' d seg hs⟩

theorem encodePair_ne_nil (p : List Char × List Char) : encodePair p ≠ [] := by
  unfold encodePair
  simp

theorem encodePair_not_contains (d : Char) (p : List Char × List Char)
    (hd : d ≠ '=') (h1 : containsC d p.1 = false) (h2 : containsC d p.2 = false) :
    containsC d (encodePair p) = false := by
  unfold encodePair
  rw [containsC_append]
  have hne : ¬ '=' = d := fun h => hd h.symm
  simp [containsC_cons, h1, h2, hne]

theorem parseQuery_encodeQuery (ps : List (List Char × List Char)) (hne : ps ≠ [])
    (hgood : ∀ p ∈ ps, containsC '=' p.1 = false ∧ containsC '&' p.1 = false ∧
      containsC '&' p.2 = false) :
    parseQuery (encodeQuery ps) = ps := by
  unfold parseQuery encodeQuery
  have hsegs_ne : ps.map encodePair ≠ [] := by simp [hne]
  have hsegs_no : ∀ s ∈ ps.map encodePair, containsC '&' s = false := by
    intro s hs
    simp only [List.mem_map] at hs
    obtain ⟨p, hp, hpe⟩ := hs
    subst hpe
    exact encodePair_not_contains '&' p (by decide) (hgood p hp).2.1 (hgood p hp).2.2
  rw [splitOnC_joinC '&' (ps.map encodePair) hsegs_ne hsegs_no]
  have hfil : (ps.map encodePair).filter (· ≠ []) = ps.map encodePair := by
    apply List.filter_eq_self.mpr
    intro a ha
    simp only [List.mem_map] at ha
    obtain ⟨p, _, hpe⟩ := ha
    subst hpe
    simpa using encodePair_ne_nil p
  rw [hfil, List.map_map]
  have hid : ∀ p ∈ ps,
      ((fun seg => (takeBeforeC '=' seg, dropThroughC '=' seg)) ∘ encodePair) p = p := by
    intro p hp
    simp only [Function.comp]
    unfold encodePair
    rw [takeBeforeC_append_split '=' p.1 p.2 (hgood p hp).1,
      dropThroughC_append_split '=' p.1 p.2 (hgood p hp).1]
  rw [List.map_congr_left hid]
  simp

theorem isPrefixOf_append_self : ∀ (p l : List Char), p.isPrefixOf (p ++ l) = true := by
  intro p
  induction p with
  | nil => intro l; simp [List.isPrefixOf]
  | cons a t ih =>
    intro l
    simp [List.isPrefixOf, ih]

theorem http_not_prefixOf_https (x : List Char) :
    "http://".data.isPrefixOf ("https://".data ++ x) = false := rfl

theorem afterSchemeC_http (x : List Char) :
    afterSchemeC ("http://".data ++ x) = x := by
  unfold afterSchemeC
  rw [if_pos (isPrefixOf_append_self "http://".data x)]
  exact List.drop_left "http://".data x

theorem afterSchemeC_https (x : List Char) :
    afterSchemeC ("https://".data ++ x) = x := by
  unfold afterSchemeC
  rw [if_neg (by rw [http_not_prefixOf_https]; simp),
    if_pos (isPrefixOf_append_self "https://".data x)]
  exact List.drop_left "https://".data x

theorem fixPathC_eq (b : List Char) :
    fixPathC b = if containsC '/' (afterSchemeC b) then b else b ++ ['/'] := rfl

theorem fixPathC_no_new (d : Char) (b : List Char) (hd : containsC d b = false)
    (hds : ¬ '/' = d) : containsC d (fixPathC b) = false := by
  rw [fixPathC_eq]
  split
  · exact hd
  · rw [containsC_append]
    simp [containsC_cons, hd, hds, containsC]

theorem fixPathC_prefix_idem (P x : List Char)
    (hpre : ∀ y, afterSchemeC (P ++ y) = y) :
    fixPathC (fixPathC (P ++ x)) = fixPathC (P ++ x) := by
  by_cases hx : containsC '/' x = true
  · have h1 : fixPathC (P ++ x) = P ++ x := by
      rw [fixPathC_eq, hpre x, if_pos hx]
    rw [h1]
    exact h1
  · have h1 : fixPathC (P ++ x) = P ++ (x ++ ['/']) := by
      rw [fixPathC_eq, hpre x, if_neg hx]
      simp
    rw [h1]
    rw [fixPathC_eq, hpre (x ++ ['/'])]
    rw [if_pos (by rw [containsC_append]; simp [containsC_cons, containsC])]

theorem splitUrlC_no_hash_no_query (B : List Char)
    (h1 : containsC '#' B = false) (h2 : containsC '?' B = false) :
    splitUrlC B = (B, []) := by
  unfold splitUrlC
  dsimp only
  rw [takeBeforeC_of_not_contains '#' B h1]
  rw [takeBeforeC_of_not_contains '?' B h2, dropThroughC_of_not_contains '?' B h2]

theorem splitUrlC_encoded (B E : List Char)
    (hB1 : containsC '#' B = false) (hB2 : containsC '?' B = false)
    (hE : containsC '#' E = false) :
    splitUrlC (B ++ '?' :: E) = (B, E) := by
  unfold splitUrlC
  dsimp only
  have hno : containsC '#' (B ++ '?' :: E) = false := by
    rw [containsC_append]
    simp [containsC_cons, hB1, hE, show ¬ '?' = '#' from by decide]
  rw [takeBeforeC_of_not_contains '#' _ hno]
  rw [takeBeforeC_append_split '?' B E hB2, dropThroughC_append_split '?' B E hB2]

theorem cleanUrlC_eq (s : List Char) :
    cleanUrlC s =
      if sortPairs (parseQuery (splitUrlC s).2) = [] then fixPathC (splitUrlC s).1
      else fixPathC (splitUrlC s).1 ++
        '?' :: encodeQuery (sortPairs (parseQuery (splitUrlC s).2)) := rfl

theorem cleanUrlC_plain_fixed (B : List Char)
    (hB1 : containsC '#' B = false) (hB2 : containsC '?' B = false)
    (hfix : fixPathC B = B) :
    cleanUrlC B = B := by
  rw [cleanUrlC_eq, splitUrlC_no_hash_no_query B hB1 hB2]
  exact hfix

theorem cleanUrlC_encoded_fixed (B : List Char) (ps : List (List Char × List Char))
    (hB1 : containsC '#' B = false) (hB2 : containsC '?' B = false)
    (hfix : fixPathC B = B)
    (hps : ps ≠ []) (hsorted : pairsSorted ps)
    (hgood : ∀ p ∈ ps, containsC '=' p.1 = false ∧ containsC '&' p.1 = false ∧
      containsC '&' p.2 = false)
    (hhash : ∀ p ∈ ps, containsC '#' p.1 = false ∧ containsC '#' p.2 = false) :
    cleanUrlC (B ++ '?' :: encodeQuery ps) = B ++ '?' :: encodeQuery ps := by
  have hEhash : containsC '#' (encodeQuery ps) = false := by
    unfold encodeQuery
    apply joinC_not_contains '&' '#' (by decide)
    intro s hs
    simp only [List.mem_map] at hs
    obtain ⟨p, hp, hpe⟩ := hs
    subst hpe
    exact encodePair_not_contains '#' p (by decide) (hhash p hp).1 (hhash p hp).2
  rw [cleanUrlC_eq, splitUrlC_encoded B (encodeQuery ps) hB1 hB2 hEhash]
  rw [show ((B, encodeQuery ps)).2 = encodeQuery ps from rfl,
    show ((B, encodeQuery ps)).1 = B from rfl]
  rw [parseQuery_encodeQuery ps hps hgood]
  rw [sortPairs_of_sorted ps hsorted]
  rw [if_neg hps, hfix]

theorem cleanUrlC_idem_aux (P t : List Char)
    (hpre : ∀ y, afterSchemeC (P ++ y) = y)
    (hP1 : containsC '#' P = false) (hP2 : containsC '?' P = false) :
    cleanUrlC (cleanUrlC (P ++ t)) = cleanUrlC (P ++ t) := by
  have hsplit : splitUrlC (P ++ t) =
      (P ++ takeBeforeC '?' (takeBeforeC '#' t),
        dropThroughC '?' (takeBeforeC '#' t)) := by
    unfold splitUrlC
    dsimp only
    rw [takeBeforeC_append_of_not_contains '#' P t hP1]
    rw [takeBeforeC_append_of_not_contains '?' P _ hP2]
    rw [dropThroughC_append_of_not_contains '?' P _ hP2]
  set b0 := takeBeforeC '?' (takeBeforeC '#' t) with hb0
  set q := dropThroughC '?' (takeBeforeC '#' t) with hq
  set ps := sortPairs (parseQuery q) with hps
  set B := fixPathC (P ++ b0) with hB
  have hq_hash : containsC '#' q = false := by
    rw [hq]
    exact dropThroughC_preserve '?' '#' _ (takeBeforeC_not_contains '#' t)
  have hbase_hash : containsC '#' (P ++ b0) = false := by
    rw [containsC_append, hb0]
    simp [hP1, takeBeforeC_preserve '?' '#' _ (takeBeforeC_not_contains '#' t)]
  have hbase_q : containsC '?' (P ++ b0) = false := by
    rw [containsC_append, hb0]
    simp [hP2, takeBeforeC_not_contains '?' (takeBeforeC '#' t)]
  have hB_hash : containsC '#' B = false := by
    rw [hB]
    exact fixPathC_no_new '#' _ hbase_hash (by decide)
  have hB_q : containsC '?' B = false := by
    rw [hB]
    exact fixPathC_no_new '?' _ hbase_q (by decide)
  have hBfix : fixPathC B = B := by
    rw [hB]
    exact fixPathC_prefix_idem P b0 hpre
  have hgood : ∀ p ∈ ps, containsC '=' p.1 = false ∧ containsC '&' p.1 = false ∧
      containsC '&' p.2 = false := by
    intro p hp
    have hp' := sortPairs_mem _ p (hps ▸ hp)
    exact ⟨parseQuery_key_no_eq q p hp', (parseQuery_no_amp q p hp').1,
      (parseQuery_no_amp q p hp').2⟩
  have hhash : ∀ p ∈ ps, containsC '#' p.1 = false ∧ containsC '#' p.2 = false := by
    intro p hp
    exact parseQuery_preserve '#' q hq_hash p (sortPairs_mem _ p (hps ▸ hp))
  have hsorted : pairsSorted ps := by
    rw [hps]
    exact sortPairs_pairsSorted _
  have hpass1 : cleanUrlC (P ++ t) = if ps = [] then B else B ++ '?' :: encodeQuery ps := by
    rw [cleanUrlC_eq, hsplit]
  rw [hpass1]
  by_cases hpsnil : ps = []
  · rw [if_pos hpsnil]
    exact cleanUrlC_plain_fixed B hB_hash hB_q hBfix
  · rw [if_neg hpsnil]
    exact cleanUrlC_encoded_fixed B ps hB_hash hB_q hBfix hpsnil hsorted hgood hhash

/-- C8: the spec-modelled URL normalizer `clean_url` (strip fragment, sort the
query parameters lexicographically by key with stable order for duplicates,
set an empty path to `/`) is idempotent on every valid URL:
`normalize(normalize(u)) = normalize(u)`. -/
theorem C8_clean_url_idempotent (u : String) (hv : is_valid_url u = true) :
    clean_url (clean_url u) = clean_url u := by
  have hlist : cleanUrlC (cleanUrlC u.data) = cleanUrlC u.data := by
    unfold is_valid_url at hv
    simp only [Bool.and_eq_true, Bool.or_eq_true] at hv
    rcases hv.1 with h | h
    · obtain ⟨t, ht⟩ := List.isPrefixOf_iff_prefix.mp h
      rw [← ht]
      exact cleanUrlC_idem_aux "http://".data t afterSchemeC_http
        (by decide) (by decide)
    · obtain ⟨t, ht⟩ := List.isPrefixOf_iff_prefix.mp h
      rw [← ht]
      exact cleanUrlC_idem_aux "https://".data t afterSchemeC_https
        (by decide) (by decide)
  exact congrArg String.mk hlist

/-- Witness for C8: a concrete valid URL with a fragment and unsorted query. -/
theorem C8_clean_url_idempotent_witness :
    is_valid_url "http://a.com/x?b=2&a=1#frag" = true ∧
    clean_url (clean_url "http://a.com/x?b=2&a=1#frag") =
      clean_url "http://a.com/x?b=2&a=1#frag" :=
  ⟨by decide, C8_clean_url_idempotent "http://a.com/x?b=2&a=1#frag" (by decide)⟩

/-- C10: `crawl` terminates for every configuration and every oracle
behavior (link lists are finite by construction): the fuel-indexed loop,
which runs the same guard and iteration, reaches the crawl's returned result
in finitely many steps — each iteration either appends at least one result
(and the guard bounds those by `max_urls`) or strictly shrinks the frontier
without touching `results`. -/
theorem C10_crawl_terminates (cfg : Config) (o : Oracles) (seed : String) :
    ∃ n, crawlFuel cfg o n seed = some (crawl cfg o seed) := by
  unfold crawlFuel crawl crawlFinal
  split
  · exact ⟨1, rfl⟩
  · dsimp only
    obtain ⟨n, hn⟩ := crawlLoop_reaches cfg o (netloc (clean_url seed))
      { to_visit := [(clean_url seed, 0)] }
    exact ⟨n, by rw [hn]; rfl⟩

end PyGoop
